import Mathlib

/-!
Boyer-Moore string search (`src/boyer-moore/c/boyer-moore.c`)

A shallow embedding of the C implementation and a verification of its
specification.

Modelling conventions.

* A `uint8_t *` is a `Mem`: a partial map from byte offsets (relative to the
  pointer) to bytes; `none` marks an offset outside the object.  `bufMem bs pre`
  is a buffer holding `bs` at offsets `0 .. bs.length - 1`; `pre` says what a
  read of offset `-1` (the byte in front of the buffer) yields: `none` when
  that access is treated as an error, `some b` when it yields the byte `b`.
* `ptrdiff_t` / `ssize_t` values are `Int`.  `size_t` values are `Nat`; where a
  `size_t` expression is used as an array subscript it is represented by the
  signed offset it denotes under pointer arithmetic (so `pos - i` with
  `i = pos + 1` is offset `-1`).  The comparisons carried out as `size_t`
  (`i < patlen`, `p < patlen-1`, `i <= pos`, `i < stringlen`) go through `toSize`,
  reduction modulo `2^64`.
* `int` loop counters are unbounded integers: lengths up to `INT_MAX` never
  overflow them.  The one conversion of a `size_t` value to `int`
  (`int suffixlen = wordlen - pos`) goes through `toInt`, truncation to 32 bits.
* Every loop carries a fuel argument and mirrors the C loop test literally;
  running out of fuel is `Res.timeout`, an access outside an object is
  `Res.fault`.
-/

namespace BoyerMoore

/-- A `uint8_t`. -/
abbrev Byte := Fin 256

/-- Memory reachable from a `uint8_t *`, by signed byte offset. -/
abbrev Mem := Int → Option Byte

/-- A buffer holding `bytes`; `pre` is what reading offset `-1` yields. -/
def bufMem (bytes : List Byte) (pre : Option Byte) : Mem := fun k =>
  if 0 ≤ k then bytes[k.toNat]? else if k = -1 then pre else none

/-- Outcome of running a piece of the program. -/
inductive Res (α : Type) where
  | ok : α → Res α
  | fault : Res α
  | timeout : Res α
  deriving DecidableEq

/-- Alphabet size: `#define ALPHABET_LEN 256`. -/
def ALPHABET_LEN : Nat := 256

/-- Number of values of a `size_t`. -/
def SIZE_MOD : Nat := 2 ^ 64

/-- Conversion of a signed value to `size_t`. -/
def toSize (x : Int) : Nat := (x % (SIZE_MOD : Int)).toNat

/-- Conversion of a value to `int` (two's complement, 32 bits). -/
def toInt (x : Int) : Int := (x + 2 ^ 31) % 2 ^ 32 - 2 ^ 31

/-- The larger of two values: `#define max(a, b) ((a < b) ? b : a)`. -/
protected def max (a b : Int) : Int := if a < b then b else a

/-- Read `tbl[k]` of a `ptrdiff_t` array. -/
def load (tbl : List Int) (k : Int) : Option Int :=
  if 0 ≤ k then tbl[k.toNat]? else none

/-- Write `tbl[k] = v` of a `ptrdiff_t` array. -/
def store (tbl : List Int) (k : Int) (v : Int) : Option (List Int) :=
  if 0 ≤ k ∧ k.toNat < tbl.length then some (tbl.set k.toNat v) else none

/-- First loop of `make_delta1`: `for (int i=0; i < ALPHABET_LEN; i++) delta1[i] = patlen;` -/
def make_delta1_fill (patlen : Nat) : Nat → Int → List Int → Res (List Int)
  | 0, _, _ => .timeout
  | fuel + 1, i, delta1 =>
    if i < (ALPHABET_LEN : Int) then
      match store delta1 i (patlen : Int) with
      | some d => make_delta1_fill patlen fuel (i + 1) d
      | none => .fault
    else .ok delta1

/-- Second loop of `make_delta1`:
`for (int i=0; i < patlen; i++) delta1[pat[i]] = patlen-1 - i;` -/
def make_delta1_pat (pat : Mem) (patlen : Nat) : Nat → Int → List Int → Res (List Int)
  | 0, _, _ => .timeout
  | fuel + 1, i, delta1 =>
    if toSize i < patlen then
      match pat i with
      | some c =>
        match store delta1 (c.val : Int) ((patlen : Int) - 1 - i) with
        | some d => make_delta1_pat pat patlen fuel (i + 1) d
        | none => .fault
      | none => .fault
    else .ok delta1

/-- Function `void make_delta1(ptrdiff_t *delta1, uint8_t *pat, size_t patlen)`. -/
def make_delta1 (delta1 : List Int) (pat : Mem) (patlen : Nat) : Res (List Int) :=
  match make_delta1_fill patlen (ALPHABET_LEN + 1) 0 delta1 with
  | .ok d => make_delta1_pat pat patlen (patlen + 1) 0 d
  | .fault => .fault
  | .timeout => .timeout

/-- Loop of `is_prefix`:
`for (int i = 0; i < suffixlen; i++) if (word[i] != word[pos+i]) return false;` -/
def is_prefix_loop (word : Mem) (pos suffixlen : Int) : Nat → Int → Res Bool
  | 0, _ => .timeout
  | fuel + 1, i =>
    if i < suffixlen then
      match word i, word (pos + i) with
      | some a, some b =>
        if a ≠ b then .ok false else is_prefix_loop word pos suffixlen fuel (i + 1)
      | _, _ => .fault
    else .ok true

/-- Function `bool is_prefix(uint8_t *word, size_t wordlen, ptrdiff_t pos)`, with
`int suffixlen = wordlen - pos;`. -/
def is_prefix (word : Mem) (wordlen : Nat) (pos : Int) : Res Bool :=
  let suffixlen : Int := toInt ((wordlen : Int) - pos)
  is_prefix_loop word pos suffixlen (suffixlen.toNat + 1) 0

/-- Loop of `suffix_length`:
`for (i = 0; (word[pos-i] == word[wordlen-1-i]) && (i <= pos); i++);` -/
def suffix_length_loop (word : Mem) (wordlen : Nat) (pos : Int) : Nat → Nat → Res Nat
  | 0, _ => .timeout
  | fuel + 1, i =>
    match word (pos - (i : Int)), word ((wordlen : Int) - 1 - (i : Int)) with
    | some a, some b =>
      if a = b ∧ i ≤ toSize pos then suffix_length_loop word wordlen pos fuel (i + 1)
      else .ok i
    | _, _ => .fault

/-- Function `size_t suffix_length(uint8_t *word, size_t wordlen, ptrdiff_t pos)`. -/
def suffix_length (word : Mem) (wordlen : Nat) (pos : Int) : Res Nat :=
  suffix_length_loop word wordlen pos (toSize pos + 2) 0

/-- First loop of `make_delta2`, state `(p, last_prefix_index, delta2)`:
`for (p=patlen-1; p>=0; p--) { if (is_prefix(pat, patlen, p+1)) last_prefix_index = p+1;
delta2[p] = last_prefix_index + (patlen-1 - p); }` -/
def make_delta2_first (pat : Mem) (patlen : Nat) : Nat → Int → Nat → List Int → Res (List Int)
  | 0, _, _, _ => .timeout
  | fuel + 1, p, last_prefix_index, delta2 =>
    if p ≥ 0 then
      match is_prefix pat patlen (p + 1) with
      | .ok b =>
        let lpi := if b then toSize (p + 1) else last_prefix_index
        match store delta2 p ((lpi : Int) + ((patlen : Int) - 1 - p)) with
        | some d => make_delta2_first pat patlen fuel (p - 1) lpi d
        | none => .fault
      | .fault => .fault
      | .timeout => .timeout
    else .ok delta2

/-- Second loop of `make_delta2`:
`for (p=0; p < patlen-1; p++) { size_t slen = suffix_length(pat, patlen, p);
if (pat[p - slen] != pat[patlen-1 - slen]) delta2[patlen-1 - slen] = patlen-1 - p + slen; }`
The loop test compares as `size_t`. -/
def make_delta2_second (pat : Mem) (patlen : Nat) : Nat → Int → List Int → Res (List Int)
  | 0, _, _ => .timeout
  | fuel + 1, p, delta2 =>
    if toSize p < toSize ((patlen : Int) - 1) then
      match suffix_length pat patlen p with
      | .ok slen =>
        match pat (p - (slen : Int)), pat ((patlen : Int) - 1 - (slen : Int)) with
        | some a, some b =>
          if a ≠ b then
            match store delta2 ((patlen : Int) - 1 - (slen : Int))
                ((patlen : Int) - 1 - p + (slen : Int)) with
            | some d => make_delta2_second pat patlen fuel (p + 1) d
            | none => .fault
          else make_delta2_second pat patlen fuel (p + 1) delta2
        | _, _ => .fault
      | .fault => .fault
      | .timeout => .timeout
    else .ok delta2

/-- Function `void make_delta2(ptrdiff_t *delta2, uint8_t *pat, size_t patlen)`. -/
def make_delta2 (delta2 : List Int) (pat : Mem) (patlen : Nat) : Res (List Int) :=
  match make_delta2_first pat patlen (patlen + 1) ((patlen : Int) - 1) 1 delta2 with
  | .ok d => make_delta2_second pat patlen (toSize ((patlen : Int) - 1) + 1) 0 d
  | .fault => .fault
  | .timeout => .timeout

/-- Body of the second loop of `make_delta2`, entered with index `p`:
`size_t slen = suffix_length(pat, patlen, p);
if (pat[p - slen] != pat[patlen-1 - slen]) delta2[patlen-1 - slen] = patlen-1 - p + slen;` -/
def make_delta2_body (pat : Mem) (patlen : Nat) (p : Int) (delta2 : List Int) :
    Res (List Int) :=
  match suffix_length pat patlen p with
  | .ok slen =>
    match pat (p - (slen : Int)), pat ((patlen : Int) - 1 - (slen : Int)) with
    | some a, some b =>
      if a ≠ b then
        match store delta2 ((patlen : Int) - 1 - (slen : Int))
            ((patlen : Int) - 1 - p + (slen : Int)) with
        | some d => .ok d
        | none => .fault
      else .ok delta2
    | _, _ => .fault
  | .fault => .fault
  | .timeout => .timeout

/-- Inner loop of the scan: `while (j >= 0 && (string[i] == pat[j])) { --i; --j; }`,
returning the final `(i, j)`. -/
def boyer_moore_inner (string pat : Mem) : Nat → Int → Int → Res (Int × Int)
  | 0, _, _ => .timeout
  | fuel + 1, i, j =>
    if j ≥ 0 then
      match string i, pat j with
      | some a, some b =>
        if a = b then boyer_moore_inner string pat fuel (i - 1) (j - 1) else .ok (i, j)
      | _, _ => .fault
    else .ok (i, j)

/-- What one pass through the body of the outer `while` does. -/
inductive Iter where
  | found (offset : Int)
  | mismatch (i j shift : Int)
  deriving DecidableEq

/-- Body of the outer loop, entered with text cursor `i`:
`ptrdiff_t j = patlen - 1; while (...) {...} if (j < 0) return &string[i+1];
ptrdiff_t shift = max(delta1[string[i]], delta2[j]);` -/
def boyer_moore_iter (string pat : Mem) (patlen : Nat) (delta1 delta2 : List Int)
    (i : Int) : Res Iter :=
  match boyer_moore_inner string pat (patlen + 1) i ((patlen : Int) - 1) with
  | .ok (i1, j) =>
    if j < 0 then .ok (.found (i1 + 1))
    else
      match string i1 with
      | some c =>
        match load delta1 (c.val : Int), load delta2 j with
        | some d1, some d2 => .ok (.mismatch i1 j (BoyerMoore.max d1 d2))
        | _, _ => .fault
      | none => .fault
  | .fault => .fault
  | .timeout => .timeout

/-- Outer loop of the scan: `while (i < stringlen) { ...; i += shift; } return NULL;`.
The result is the offset of the returned pointer, `none` for `NULL`. -/
def boyer_moore_scan (string : Mem) (stringlen : Nat) (pat : Mem) (patlen : Nat)
    (delta1 delta2 : List Int) : Nat → Int → Res (Option Int)
  | 0, _ => .timeout
  | fuel + 1, i =>
    if toSize i < stringlen then
      match boyer_moore_iter string pat patlen delta1 delta2 i with
      | .ok (.found k) => .ok (some k)
      | .ok (.mismatch i1 _ shift) =>
        boyer_moore_scan string stringlen pat patlen delta1 delta2 fuel (i1 + shift)
      | .fault => .fault
      | .timeout => .timeout
    else .ok none

/-- Function
`uint8_t* boyer_moore(uint8_t *string, size_t stringlen, uint8_t *pat, size_t patlen)`.
The local arrays start out filled with zeros; `fuel` bounds the number of passes
through the outer loop. -/
def boyer_moore (fuel : Nat) (string : Mem) (stringlen : Nat) (pat : Mem) (patlen : Nat) :
    Res (Option Int) :=
  match make_delta1 (List.replicate ALPHABET_LEN 0) pat patlen with
  | .ok delta1 =>
    match make_delta2 (List.replicate patlen 0) pat patlen with
    | .ok delta2 =>
      if patlen = 0 then .ok (some 0)
      else boyer_moore_scan string stringlen pat patlen delta1 delta2 fuel ((patlen : Int) - 1)
    | .fault => .fault
    | .timeout => .timeout
  | .fault => .fault
  | .timeout => .timeout

/-! Specification-side definitions. -/

/-- Invariant of the second loop of `make_delta1` once the first `m` pattern bytes are done. -/
def Delta1Inv (pat : List Byte) (m : Nat) (d : List Int) : Prop :=
  d.length = ALPHABET_LEN ∧ ∀ c : Byte,
    ((∀ r, r < m → pat[r]? ≠ some c) → d[c.val]? = some (pat.length : Int)) ∧
    (∀ r, r < m → pat[r]? = some c → (∀ r', r < r' → r' < m → pat[r']? ≠ some c) →
      d[c.val]? = some ((pat.length : Int) - 1 - (r : Int)))

/-- The suffix of `word` starting at `pos` equals the prefix of the same length. -/
def IsPrefixAt (word : List Byte) (pos : Nat) : Prop :=
  ∀ i, i < word.length - pos → word[i]? = word[pos + i]?

instance (word : List Byte) (pos : Nat) : Decidable (IsPrefixAt word pos) := by
  unfold IsPrefixAt; infer_instance

/-- The `k` bytes of `word` ending at index `pos` equal the last `k` bytes of `word`. -/
def SuffixMatch (word : List Byte) (pos k : Nat) : Prop :=
  ∀ t, t < k → word[pos - t]? = word[word.length - 1 - t]?

/-- `q` is the least index above `p` at which the suffix of `pat` is a prefix of `pat`
(`q = pat.length`, the empty suffix, at the latest). -/
def LeastPrefixAbove (pat : List Byte) (p q : Nat) : Prop :=
  p < q ∧ q ≤ pat.length ∧ IsPrefixAt pat q ∧ ∀ q', p < q' → IsPrefixAt pat q' → q ≤ q'

/-- State of `delta2` once the first loop of `make_delta2` has filled the indices `m ..`. -/
def FirstLoopDone (pat : List Byte) (m : Nat) (d : List Int) : Prop :=
  d.length = pat.length ∧ ∀ q, m ≤ q → q < pat.length →
    ∃ L, LeastPrefixAbove pat q L ∧ d[q]? = some ((L : Int) + ((pat.length : Int) - 1 - (q : Int)))

/-- Strong good-suffix rule, first case: the suffix matched after index `j` recurs `s` places
to the left, preceded by a byte different from `pat[j]`. -/
def ShiftRecurs (pat : List Byte) (j s : Nat) : Prop :=
  s ≤ j ∧ pat[j - s]? ≠ pat[j]? ∧ ∀ k, j < k → k < pat.length → pat[k - s]? = pat[k]?

/-- Strong good-suffix rule, second case: shifting by `s > j` realigns a prefix of the pattern
with the tail of the matched suffix. -/
def ShiftPrefix (pat : List Byte) (j s : Nat) : Prop :=
  j < s ∧ ∀ k, s ≤ k → k < pat.length → pat[k - s]? = pat[k]?

/-- An alignment shift `s ≥ 1` compatible with the strong good-suffix rule at index `j`. -/
def GoodShift (pat : List Byte) (j s : Nat) : Prop :=
  1 ≤ s ∧ (ShiftRecurs pat j s ∨ ShiftPrefix pat j s)

/-- Candidate shifts at index `q` known once the second loop of `make_delta2` has handled
every `p < P`. -/
def ShiftCand (pat : List Byte) (P q s : Nat) : Prop :=
  1 ≤ s ∧ (ShiftPrefix pat q s ∨ (ShiftRecurs pat q s ∧ pat.length ≤ P + s))

/-- State of `delta2` once the second loop of `make_delta2` has handled every `p < P`. -/
def SecondLoopInv (pat : List Byte) (P : Nat) (d : List Int) : Prop :=
  d.length = pat.length ∧ ∀ q, q < pat.length →
    ∃ s : Nat, d[q]? = some (((pat.length : Int) - 1 - (q : Int)) + (s : Int)) ∧
      ShiftCand pat P q s ∧ ∀ s', ShiftCand pat P q s' → s ≤ s'

/-- The table built by `make_delta2`: every entry is the matched length plus the least
good-suffix shift. -/
def Delta2Table (pat : List Byte) (d : List Int) : Prop :=
  d.length = pat.length ∧ ∀ j, j < pat.length →
    ∃ s : Nat, d[j]? = some (((pat.length : Int) - 1 - (j : Int)) + (s : Int)) ∧
      GoodShift pat j s ∧ ∀ s', GoodShift pat j s' → s ≤ s'

/-- The pattern occurs in the text at offset `k`. -/
def Occurs (string pat : List Byte) (k : Nat) : Prop :=
  k + pat.length ≤ string.length ∧ ∀ t, t < pat.length → string[k + t]? = pat[t]?

/-- What a search for the leftmost occurrence has to return: the offset of the first
occurrence, or `none` when there is none. -/
def Leftmost (string pat : List Byte) : Option Int → Prop
  | some k => ∃ k' : Nat, k = (k' : Int) ∧ Occurs string pat k' ∧
      ∀ k0 : Nat, k0 < k' → ¬ Occurs string pat k0
  | none => ∀ k : Nat, ¬ Occurs string pat k

instance (string pat : List Byte) (k : Nat) : Decidable (Occurs string pat k) := by
  unfold Occurs; infer_instance

/-- Largest value of an `int`. -/
def INT_MAX : Nat := 2 ^ 31 - 1

/-- Largest value of a `ptrdiff_t`. -/
def PTRDIFF_MAX : Nat := 2 ^ 63 - 1

/-- Naive left-to-right scan: try the offsets `k, k+1, ...` in turn. -/
def naive_scan (string pat : List Byte) : Nat → Nat → Option Int
  | 0, _ => none
  | fuel + 1, k => if Occurs string pat k then some (k : Int) else naive_scan string pat fuel (k + 1)

/-- Naive search: the first offset in `0 .. stringlen` at which the pattern occurs. -/
def naive_search (string pat : List Byte) : Option Int :=
  naive_scan string pat (string.length + 1) 0

/-- Text cursors with which the outer loop of `boyer_moore` is entered. -/
inductive Reached (string : Mem) (stringlen : Nat) (pat : Mem) (patlen : Nat)
    (delta1 delta2 : List Int) : Int → Prop where
  | start : Reached string stringlen pat patlen delta1 delta2 ((patlen : Int) - 1)
  | step (i i1 j shift : Int) :
      Reached string stringlen pat patlen delta1 delta2 i →
      toSize i < stringlen →
      boyer_moore_iter string pat patlen delta1 delta2 i = .ok (.mismatch i1 j shift) →
      Reached string stringlen pat patlen delta1 delta2 (i1 + shift)

/-- Tables `delta2` with which the second loop of `make_delta2` is entered at index `p`, the
loop being started at index 0 with the table `d0`. -/
inductive SecondReached (pat : Mem) (patlen : Nat) (d0 : List Int) : Int → List Int → Prop where
  | start : SecondReached pat patlen d0 0 d0
  | step (p : Int) (d d1 : List Int) :
      SecondReached pat patlen d0 p d →
      toSize p < toSize ((patlen : Int) - 1) →
      make_delta2_body pat patlen p d = .ok d1 →
      SecondReached pat patlen d0 (p + 1) d1

/-! Lemmas. -/

theorem bufMem_ofNat (bs : List Byte) (pre : Option Byte) (k : Nat) :
    bufMem bs pre (k : Int) = bs[k]? := by
  simp [bufMem]

theorem bufMem_nonneg (bs : List Byte) (pre : Option Byte) (k : Int) (hk : 0 ≤ k) :
    bufMem bs pre k = bs[k.toNat]? := by
  simp [bufMem, hk]

theorem bufMem_neg_one (bs : List Byte) (pre : Option Byte) :
    bufMem bs pre (-1) = pre := by
  simp [bufMem]

theorem toSize_ofNat (k : Nat) (hk : k < SIZE_MOD) : toSize (k : Int) = k := by
  unfold toSize
  have : ((k : Int) % (SIZE_MOD : Int)) = (k : Int) := by
    apply Int.emod_eq_of_lt <;> omega
  rw [this]; simp

theorem int_max_lt_size_mod (n : Nat) (h : n ≤ INT_MAX) : n < SIZE_MOD := by
  unfold INT_MAX at h; unfold SIZE_MOD; omega

theorem ptrdiff_max_lt_size_mod (n : Nat) (h : n ≤ PTRDIFF_MAX) : n < SIZE_MOD := by
  unfold PTRDIFF_MAX at h; unfold SIZE_MOD; omega

theorem toInt_of_le (x : Int) (h0 : 0 ≤ x) (h : x ≤ (INT_MAX : Int)) : toInt x = x := by
  unfold toInt
  unfold INT_MAX at h
  omega

theorem store_ofNat (tbl : List Int) (k : Nat) (v : Int) (hk : k < tbl.length) :
    store tbl (k : Int) v = some (tbl.set k v) := by
  simp [store, hk]

theorem load_ofNat (tbl : List Int) (k : Nat) : load tbl (k : Int) = tbl[k]? := by
  simp [load]

theorem make_delta1_fill_spec (patlen : Nat) :
    ∀ (fuel i : Nat) (d : List Int), d.length = ALPHABET_LEN → i ≤ ALPHABET_LEN →
      ALPHABET_LEN - i < fuel →
      ∃ d1, make_delta1_fill patlen fuel (i : Int) d = .ok d1 ∧ d1.length = ALPHABET_LEN ∧
        ∀ k, d1[k]? = if k < i then d[k]? else if k < ALPHABET_LEN then some (patlen : Int) else none := by
  intro fuel
  induction fuel with
  | zero => intro i d _ _ h; omega
  | succ fuel ih =>
    intro i d hd hi hf
    unfold make_delta1_fill
    by_cases hlt : i < ALPHABET_LEN
    · have hlt' : (i : Int) < (ALPHABET_LEN : Int) := by exact_mod_cast hlt
      rw [if_pos hlt', store_ofNat d i _ (by omega)]
      simp only
      have hi1 : ((i : Int) + 1) = ((i + 1 : Nat) : Int) := by push_cast; rfl
      rw [hi1]
      obtain ⟨d1, h1, h2, h3⟩ := ih (i + 1) (d.set i patlen) (by simpa using hd) (by omega) (by omega)
      refine ⟨d1, h1, h2, ?_⟩
      intro k
      rw [h3 k, List.getElem?_set]
      by_cases hk : k < i
      · have : ¬ i = k := by omega
        simp [hk, this, Nat.lt_succ_of_lt hk]
      · by_cases hki : k = i
        · subst hki; simp [hd, hlt]
        · have h1 : ¬ k < i + 1 := by omega
          simp [hk, h1]
    · have hlt' : ¬ (i : Int) < (ALPHABET_LEN : Int) := by exact_mod_cast hlt
      rw [if_neg hlt']
      refine ⟨d, rfl, hd, ?_⟩
      intro k
      by_cases hk : k < i
      · simp [hk]
      · have : d[k]? = none := List.getElem?_eq_none (by omega)
        have h2 : ¬ k < ALPHABET_LEN := by omega
        simp [hk, this, h2]

theorem make_delta1_pat_spec (pat : List Byte) (pre : Option Byte) (hn : pat.length < SIZE_MOD) :
    ∀ (fuel i : Nat) (d : List Int), i ≤ pat.length → pat.length - i < fuel →
      Delta1Inv pat i d →
      ∃ d1, make_delta1_pat (bufMem pat pre) pat.length fuel (i : Int) d = .ok d1 ∧
        Delta1Inv pat pat.length d1 := by
  intro fuel
  induction fuel with
  | zero => intro i d _ h; omega
  | succ fuel ih =>
    intro i d hi hf hinv
    unfold make_delta1_pat
    rw [toSize_ofNat i (by omega)]
    by_cases hlt : i < pat.length
    · rw [if_pos hlt, bufMem_ofNat, List.getElem?_eq_getElem hlt]
      simp only
      have hc : (pat[i]).val < d.length := by rw [hinv.1]; exact (pat[i]).isLt
      rw [store_ofNat d _ _ hc]
      simp only
      have hi1 : ((i : Int) + 1) = ((i + 1 : Nat) : Int) := by push_cast; rfl
      rw [hi1]
      apply ih (i + 1) _ (by omega) (by omega)
      refine ⟨by simpa using hinv.1, ?_⟩
      intro c
      by_cases hcc : c = pat[i]
      · subst hcc
        constructor
        · intro h
          exact absurd (List.getElem?_eq_getElem hlt) (h i (by omega))
        · intro r hr hpr hlast
          have hri : r = i := by
            by_contra hne
            exact hlast i (by omega) (by omega) (List.getElem?_eq_getElem hlt)
          subst hri
          simp [hc]
      · have hne : (pat[i]).val ≠ c.val := fun h => hcc (Fin.ext h.symm)
        rw [List.getElem?_set_ne hne]
        constructor
        · intro h
          exact (hinv.2 c).1 (fun r hr => h r (by omega))
        · intro r hr hpr hlast
          have hri : r ≠ i := by
            intro h
            subst h
            rw [List.getElem?_eq_getElem hlt] at hpr
            exact hcc (Option.some.inj hpr).symm
          exact (hinv.2 c).2 r (by omega) hpr (fun r' h1 h2 => hlast r' h1 (by omega))
    · rw [if_neg hlt]
      have : i = pat.length := by omega
      subst this
      exact ⟨d, rfl, hinv⟩

theorem make_delta1_spec (pat : List Byte) (pre : Option Byte) (d : List Int)
    (hd : d.length = ALPHABET_LEN) (hn : pat.length < SIZE_MOD) :
    ∃ d1, make_delta1 d (bufMem pat pre) pat.length = .ok d1 ∧ Delta1Inv pat pat.length d1 := by
  obtain ⟨d0, h0, hl0, hk0⟩ := make_delta1_fill_spec pat.length (ALPHABET_LEN + 1) 0 d hd
    (by omega) (by omega)
  unfold make_delta1
  simp only [Nat.cast_zero] at h0
  rw [h0]
  simp only
  have := make_delta1_pat_spec pat pre hn (pat.length + 1) 0 d0 (by omega) (by omega) ?_
  · simpa using this
  · refine ⟨hl0, fun c => ⟨fun _ => ?_, fun r hr => by omega⟩⟩
    rw [hk0]
    simp [c.isLt, ALPHABET_LEN]

theorem is_prefix_loop_spec (word : List Byte) (pre : Option Byte) (pos : Nat)
    (hpos : pos ≤ word.length) :
    ∀ (fuel i : Nat), i ≤ word.length - pos → word.length - pos - i < fuel →
      (∀ t, t < i → word[t]? = word[pos + t]?) →
      is_prefix_loop (bufMem word pre) (pos : Int) ((word.length : Int) - (pos : Int)) fuel (i : Int)
        = .ok (decide (IsPrefixAt word pos)) := by
  intro fuel
  induction fuel with
  | zero => intro i _ h; omega
  | succ fuel ih =>
    intro i hi hf hinv
    unfold is_prefix_loop
    by_cases hlt : i < word.length - pos
    · have hlt' : (i : Int) < (word.length : Int) - (pos : Int) := by omega
      rw [if_pos hlt']
      have e1 : (pos : Int) + (i : Int) = ((pos + i : Nat) : Int) := by push_cast; rfl
      rw [e1, bufMem_ofNat, bufMem_ofNat, List.getElem?_eq_getElem (by omega : i < word.length),
        List.getElem?_eq_getElem (by omega : pos + i < word.length)]
      simp only
      by_cases hab : word[i] = word[pos + i]
      · rw [if_neg (by simpa using hab)]
        have hi1 : ((i : Int) + 1) = ((i + 1 : Nat) : Int) := by push_cast; rfl
        rw [hi1]
        apply ih (i + 1) (by omega) (by omega)
        intro t ht
        by_cases hti : t = i
        · subst hti
          rw [List.getElem?_eq_getElem (by omega : t < word.length),
            List.getElem?_eq_getElem (by omega : pos + t < word.length), hab]
        · exact hinv t (by omega)
      · rw [if_pos hab]
        congr 1
        symm
        rw [decide_eq_false_iff_not]
        intro h
        have := h i hlt
        rw [List.getElem?_eq_getElem (by omega : i < word.length),
            List.getElem?_eq_getElem (by omega : pos + i < word.length)] at this
        exact hab (Option.some.inj this)
    · have hlt' : ¬ (i : Int) < (word.length : Int) - (pos : Int) := by omega
      rw [if_neg hlt']
      congr 1
      symm
      rw [decide_eq_true_iff]
      intro t ht
      exact hinv t (by omega)

theorem is_prefix_spec (word : List Byte) (pre : Option Byte) (pos : Nat)
    (hpos : pos ≤ word.length) (hn : word.length ≤ INT_MAX) :
    is_prefix (bufMem word pre) word.length (pos : Int) = .ok (decide (IsPrefixAt word pos)) := by
  unfold is_prefix
  have ht : toInt ((word.length : Int) - (pos : Int)) = (word.length : Int) - (pos : Int) :=
    toInt_of_le _ (by omega) (by omega)
  simp only [ht]
  have := is_prefix_loop_spec word pre pos hpos
    (((word.length : Int) - (pos : Int)).toNat + 1) 0 (by omega) (by omega) (by intro t ht; omega)
  simpa using this

theorem suffix_length_loop_spec (word : List Byte) (b : Byte) (pos : Nat)
    (hpos : pos < word.length) (hn : word.length < SIZE_MOD) :
    ∀ (fuel i : Nat), i ≤ pos + 1 → pos + 1 - i < fuel → SuffixMatch word pos i →
      ∃ k, suffix_length_loop (bufMem word (some b)) word.length (pos : Int) fuel i = .ok k ∧
        k ≤ pos + 1 ∧ SuffixMatch word pos k ∧
        (k ≤ pos → word[pos - k]? ≠ word[word.length - 1 - k]?) := by
  intro fuel
  induction fuel with
  | zero => intro i _ h; omega
  | succ fuel ih =>
    intro i hi hf hinv
    unfold suffix_length_loop
    rw [toSize_ofNat pos (by omega)]
    by_cases hle : i ≤ pos
    · have e1 : (pos : Int) - (i : Int) = ((pos - i : Nat) : Int) := by omega
      have e2 : (word.length : Int) - 1 - (i : Int) = ((word.length - 1 - i : Nat) : Int) := by
        omega
      rw [e1, e2, bufMem_ofNat, bufMem_ofNat,
        List.getElem?_eq_getElem (by omega : pos - i < word.length),
        List.getElem?_eq_getElem (by omega : word.length - 1 - i < word.length)]
      simp only
      by_cases hab : word[pos - i] = word[word.length - 1 - i]
      · rw [if_pos ⟨hab, hle⟩]
        apply ih (i + 1) (by omega) (by omega)
        intro t ht
        by_cases hti : t = i
        · subst hti
          rw [List.getElem?_eq_getElem (by omega : pos - t < word.length),
            List.getElem?_eq_getElem (by omega : word.length - 1 - t < word.length), hab]
        · exact hinv t (by omega)
      · rw [if_neg (by intro h; exact hab h.1)]
        refine ⟨i, rfl, hi, hinv, fun _ => ?_⟩
        rw [List.getElem?_eq_getElem (by omega : pos - i < word.length),
            List.getElem?_eq_getElem (by omega : word.length - 1 - i < word.length)]
        intro h
        exact hab (Option.some.inj h)
    · have hi' : i = pos + 1 := by omega
      have e1 : (pos : Int) - (i : Int) = -1 := by omega
      rw [e1, bufMem_neg_one]
      have hsome : ∃ c, bufMem word (some b) ((word.length : Int) - 1 - (i : Int)) = some c := by
        by_cases hlast : pos + 1 = word.length
        · have e2 : (word.length : Int) - 1 - (i : Int) = -1 := by omega
          rw [e2, bufMem_neg_one]
          exact ⟨b, rfl⟩
        · have e2 : (word.length : Int) - 1 - (i : Int) = ((word.length - 1 - i : Nat) : Int) := by
            omega
          rw [e2, bufMem_ofNat,
            List.getElem?_eq_getElem (by omega : word.length - 1 - i < word.length)]
          exact ⟨_, rfl⟩
      obtain ⟨c, hc⟩ := hsome
      rw [hc]
      simp only
      rw [if_neg (by intro h; exact hle h.2)]
      exact ⟨i, rfl, hi, hinv, fun h => absurd h hle⟩

theorem suffix_length_spec (word : List Byte) (b : Byte) (pos : Nat)
    (hpos : pos < word.length) (hn : word.length < SIZE_MOD) :
    ∃ k, suffix_length (bufMem word (some b)) word.length (pos : Int) = .ok k ∧
      k ≤ pos + 1 ∧ SuffixMatch word pos k ∧
      (k ≤ pos → word[pos - k]? ≠ word[word.length - 1 - k]?) := by
  unfold suffix_length
  rw [toSize_ofNat pos (by omega)]
  exact suffix_length_loop_spec word b pos hpos hn (pos + 2) 0 (by omega) (by omega)
    (by intro t ht; omega)

theorem suffixMatch_le_of_mismatch (word : List Byte) (pos k k' : Nat)
    (hk : k ≤ pos → word[pos - k]? ≠ word[word.length - 1 - k]?)
    (hk1 : k ≤ pos + 1) (hk' : k' ≤ pos + 1) (hm : SuffixMatch word pos k') : k' ≤ k := by
  by_contra hlt
  exact hk (by omega) (hm k (by omega))

theorem isPrefixAt_length (pat : List Byte) : IsPrefixAt pat pat.length := by
  intro i hi; omega

theorem make_delta2_first_spec (pat : List Byte) (pre : Option Byte)
    (hn : pat.length ≤ INT_MAX) :
    ∀ (fuel m lpi : Nat) (d : List Int), m ≤ pat.length → m < fuel →
      (m < pat.length → LeastPrefixAbove pat m lpi) → FirstLoopDone pat m d →
      ∃ d1, make_delta2_first (bufMem pat pre) pat.length fuel ((m : Int) - 1) lpi d = .ok d1 ∧
        FirstLoopDone pat 0 d1 := by
  intro fuel
  induction fuel with
  | zero => intro m _ _ _ h; omega
  | succ fuel ih =>
    intro m lpi d hm hf hlpi hinv
    have hn' := int_max_lt_size_mod _ hn
    unfold make_delta2_first
    by_cases hpos : 0 < m
    · rw [if_pos (by omega : (m : Int) - 1 ≥ 0)]
      have e1 : (m : Int) - 1 + 1 = (m : Int) := by omega
      rw [e1, is_prefix_spec pat pre m hm hn]
      simp only
      rw [toSize_ofNat m (by omega)]
      have e2 : (m : Int) - 1 = ((m - 1 : Nat) : Int) := by omega
      rw [e2, store_ofNat d (m - 1) _ (by rw [hinv.1]; omega)]
      simp only
      have hl : LeastPrefixAbove pat (m - 1)
          (if decide (IsPrefixAt pat m) = true then m else lpi) := by
        by_cases hp : IsPrefixAt pat m
        · simp only [hp, decide_True, if_true]
          exact ⟨by omega, hm, hp, fun q' hq' _ => by omega⟩
        · simp only [hp, decide_False, Bool.false_eq_true, if_false]
          have hmn : m < pat.length := by
            by_contra h
            have : m = pat.length := by omega
            exact hp (this ▸ isPrefixAt_length pat)
          obtain ⟨h1, h2, h3, h4⟩ := hlpi hmn
          refine ⟨by omega, h2, h3, fun q' hq' hq'p => ?_⟩
          by_cases hq'm : q' = m
          · subst hq'm; exact absurd hq'p hp
          · exact h4 q' (by omega) hq'p
      apply ih (m - 1) _ _ (by omega) (by omega) (fun _ => hl)
      refine ⟨by simpa using hinv.1, fun q hq1 hq2 => ?_⟩
      by_cases hq : q = m - 1
      · subst hq
        refine ⟨_, hl, ?_⟩
        rw [List.getElem?_set_self (by rw [hinv.1]; omega)]
      · rw [List.getElem?_set_ne (by omega)]
        exact hinv.2 q (by omega) hq2
    · have hm0 : m = 0 := by omega
      subst hm0
      rw [if_neg (by omega)]
      exact ⟨d, rfl, hinv⟩

theorem shiftPrefix_iff (pat : List Byte) (q s : Nat) :
    ShiftPrefix pat q s ↔ q < s ∧ IsPrefixAt pat s := by
  constructor
  · rintro ⟨h1, h2⟩
    refine ⟨h1, fun i hi => ?_⟩
    have := h2 (s + i) (by omega) (by omega)
    rw [show s + i - s = i from by omega] at this
    exact this
  · rintro ⟨h1, h2⟩
    refine ⟨h1, fun k hk1 hk2 => ?_⟩
    have := h2 (k - s) (by omega)
    rw [show s + (k - s) = k from by omega] at this
    exact this

theorem secondLoopInv_init (pat : List Byte) (d : List Int) (h : FirstLoopDone pat 0 d) :
    SecondLoopInv pat 0 d := by
  refine ⟨h.1, fun q hq => ?_⟩
  obtain ⟨L, ⟨hL1, hL2, hL3, hL4⟩, hd⟩ := h.2 q (by omega) hq
  refine ⟨L, ?_, ⟨by omega, Or.inl ((shiftPrefix_iff pat q L).2 ⟨hL1, hL3⟩)⟩, ?_⟩
  · rw [hd]; congr 1; omega
  · rintro s' ⟨_, hs' | ⟨⟨hs1, _⟩, hs2⟩⟩
    · obtain ⟨h1, h2⟩ := (shiftPrefix_iff pat q s').1 hs'
      exact hL4 s' h1 h2
    · omega

theorem shiftRecurs_suffix (pat : List Byte) (P q : Nat) (hP : P + 1 < pat.length)
    (hq : q < pat.length) (h : ShiftRecurs pat q (pat.length - 1 - P)) :
    pat.length - 1 - q ≤ P ∧ SuffixMatch pat P (pat.length - 1 - q) ∧
      pat[P - (pat.length - 1 - q)]? ≠ pat[pat.length - 1 - (pat.length - 1 - q)]? := by
  obtain ⟨h1, h2, h3⟩ := h
  refine ⟨by omega, fun t ht => ?_, ?_⟩
  · have := h3 (pat.length - 1 - t) (by omega) (by omega)
    rw [show pat.length - 1 - t - (pat.length - 1 - P) = P - t from by omega] at this
    exact this
  · rw [show P - (pat.length - 1 - q) = q - (pat.length - 1 - P) from by omega,
      show pat.length - 1 - (pat.length - 1 - q) = q from by omega]
    exact h2

theorem shiftRecurs_of_suffix (pat : List Byte) (P k : Nat) (hP : P + 1 < pat.length)
    (hk : k ≤ P) (hm : SuffixMatch pat P k)
    (hne : pat[P - k]? ≠ pat[pat.length - 1 - k]?) :
    ShiftRecurs pat (pat.length - 1 - k) (pat.length - 1 - P) := by
  refine ⟨by omega, ?_, fun j hj1 hj2 => ?_⟩
  · rw [show pat.length - 1 - k - (pat.length - 1 - P) = P - k from by omega]
    exact hne
  · have := hm (pat.length - 1 - j) (by omega)
    rw [show P - (pat.length - 1 - j) = j - (pat.length - 1 - P) from by omega,
      show pat.length - 1 - (pat.length - 1 - j) = j from by omega] at this
    exact this

theorem shiftPrefix_of_suffix (pat : List Byte) (P : Nat) (hP : P + 1 < pat.length)
    (hm : SuffixMatch pat P (P + 1)) :
    ShiftPrefix pat (pat.length - 1 - (P + 1)) (pat.length - 1 - P) := by
  refine ⟨by omega, fun j hj1 hj2 => ?_⟩
  have := hm (pat.length - 1 - j) (by omega)
  rw [show P - (pat.length - 1 - j) = j - (pat.length - 1 - P) from by omega,
    show pat.length - 1 - (pat.length - 1 - j) = j from by omega] at this
  exact this

/-- A recurrence candidate with shift `n-1-P` sits at the index fixed by the suffix length
measured at `P`. -/
theorem shiftRecurs_index (pat : List Byte) (P q k : Nat) (hP : P + 1 < pat.length)
    (hq : q < pat.length) (hk1 : k ≤ P + 1) (hm : SuffixMatch pat P k)
    (hne : k ≤ P → pat[P - k]? ≠ pat[pat.length - 1 - k]?)
    (h : ShiftRecurs pat q (pat.length - 1 - P)) :
    k ≤ P ∧ q = pat.length - 1 - k := by
  obtain ⟨h1, h2, h3⟩ := shiftRecurs_suffix pat P q hP hq h
  have hle : pat.length - 1 - q ≤ k :=
    suffixMatch_le_of_mismatch pat P k (pat.length - 1 - q) hne hk1 (by omega) h2
  have hge : k ≤ pat.length - 1 - q := by
    by_contra hlt
    exact h3 (hm (pat.length - 1 - q) (by omega))
  constructor <;> omega

theorem secondLoopInv_skip (pat : List Byte) (P k : Nat) (d : List Int)
    (hP : P + 1 < pat.length) (hk : k = P + 1) (hm : SuffixMatch pat P k)
    (hinv : SecondLoopInv pat P d) : SecondLoopInv pat (P + 1) d := by
  refine ⟨hinv.1, fun q hq => ?_⟩
  obtain ⟨s, hs1, ⟨hs2, hs3⟩, hs4⟩ := hinv.2 q hq
  refine ⟨s, hs1, ⟨hs2, ?_⟩, ?_⟩
  · rcases hs3 with h | ⟨h, h'⟩
    · exact Or.inl h
    · exact Or.inr ⟨h, by omega⟩
  · rintro s' ⟨hs'1, hs' | ⟨hs', hs'2⟩⟩
    · exact hs4 s' ⟨hs'1, Or.inl hs'⟩
    · by_cases hold : pat.length ≤ P + s'
      · exact hs4 s' ⟨hs'1, Or.inr ⟨hs', hold⟩⟩
      · have hs0 : s' = pat.length - 1 - P := by omega
        rw [hs0] at hs'
        have := shiftRecurs_index pat P q k hP hq (by omega) hm (by omega) hs'
        omega

theorem secondLoopInv_write (pat : List Byte) (P k : Nat) (d : List Int)
    (hP : P + 1 < pat.length) (hk1 : k ≤ P + 1) (hm : SuffixMatch pat P k)
    (hne : k ≤ P → pat[P - k]? ≠ pat[pat.length - 1 - k]?)
    (hinv : SecondLoopInv pat P d) :
    SecondLoopInv pat (P + 1)
      (d.set (pat.length - 1 - k) ((pat.length : Int) - 1 - (P : Int) + (k : Int))) := by
  refine ⟨by simpa using hinv.1, fun q hq => ?_⟩
  by_cases hq0 : q = pat.length - 1 - k
  · subst hq0
    refine ⟨pat.length - 1 - P, ?_, ⟨by omega, ?_⟩, ?_⟩
    · rw [List.getElem?_set_self (by rw [hinv.1]; omega)]
      congr 1; omega
    · by_cases hkP : k ≤ P
      · exact Or.inr ⟨shiftRecurs_of_suffix pat P k hP hkP hm (hne hkP), by omega⟩
      · have hk : k = P + 1 := by omega
        subst hk
        exact Or.inl (shiftPrefix_of_suffix pat P hP hm)
    · rintro s' ⟨hs'1, ⟨hs', _⟩ | ⟨_, hs'2⟩⟩ <;> omega
  · rw [List.getElem?_set_ne (by omega)]
    obtain ⟨s, hs1, ⟨hs2, hs3⟩, hs4⟩ := hinv.2 q hq
    refine ⟨s, hs1, ⟨hs2, ?_⟩, ?_⟩
    · rcases hs3 with h | ⟨h, h'⟩
      · exact Or.inl h
      · exact Or.inr ⟨h, by omega⟩
    · rintro s' ⟨hs'1, hs' | ⟨hs', hs'2⟩⟩
      · exact hs4 s' ⟨hs'1, Or.inl hs'⟩
      · by_cases hold : pat.length ≤ P + s'
        · exact hs4 s' ⟨hs'1, Or.inr ⟨hs', hold⟩⟩
        · have hs0 : s' = pat.length - 1 - P := by omega
          rw [hs0] at hs'
          have := shiftRecurs_index pat P q k hP hq hk1 hm hne hs'
          omega

theorem toSize_pred (n : Nat) (h1 : 0 < n) (hn : n < SIZE_MOD) :
    toSize ((n : Int) - 1) = n - 1 := by
  have e : (n : Int) - 1 = ((n - 1 : Nat) : Int) := by omega
  rw [e, toSize_ofNat _ (by omega)]

theorem make_delta2_second_spec (pat : List Byte) (b : Byte) (h1 : 0 < pat.length)
    (hn : pat.length < SIZE_MOD) :
    ∀ (fuel P : Nat) (d : List Int), P ≤ pat.length - 1 → pat.length - 1 - P < fuel →
      SecondLoopInv pat P d →
      ∃ d1, make_delta2_second (bufMem pat (some b)) pat.length fuel (P : Int) d = .ok d1 ∧
        SecondLoopInv pat (pat.length - 1) d1 := by
  intro fuel
  induction fuel with
  | zero => intro P _ _ h; omega
  | succ fuel ih =>
    intro P d hP hf hinv
    unfold make_delta2_second
    rw [toSize_ofNat P (by omega), toSize_pred pat.length h1 hn]
    by_cases hlt : P < pat.length - 1
    · rw [if_pos hlt]
      obtain ⟨k, hk0, hk1, hk2, hk3⟩ := suffix_length_spec pat b P (by omega) hn
      rw [hk0]
      simp only
      have hP1 : ((P : Int) + 1) = ((P + 1 : Nat) : Int) := by push_cast; rfl
      have e2 : (pat.length : Int) - 1 - (k : Int) = ((pat.length - 1 - k : Nat) : Int) := by
        omega
      rw [e2, bufMem_ofNat,
        List.getElem?_eq_getElem (by omega : pat.length - 1 - k < pat.length)]
      by_cases hkP : k ≤ P
      · have e1 : (P : Int) - (k : Int) = ((P - k : Nat) : Int) := by omega
        rw [e1, bufMem_ofNat, List.getElem?_eq_getElem (by omega : P - k < pat.length)]
        simp only
        have ea := List.getElem?_eq_getElem (l := pat) (by omega : P - k < pat.length)
        have eb := List.getElem?_eq_getElem (l := pat)
          (by omega : pat.length - 1 - k < pat.length)
        have hne' : pat[P - k] ≠ pat[pat.length - 1 - k] :=
          fun h => hk3 hkP (ea.trans ((congrArg some h).trans eb.symm))
        rw [if_pos hne', store_ofNat d _ _ (by rw [hinv.1]; omega)]
        simp only
        rw [hP1]
        exact ih (P + 1) _ (by omega) (by omega)
          (secondLoopInv_write pat P k d (by omega) hk1 hk2 hk3 hinv)
      · have e1 : (P : Int) - (k : Int) = -1 := by omega
        rw [e1, bufMem_neg_one]
        simp only
        by_cases hg : b ≠ pat[pat.length - 1 - k]
        · rw [if_pos hg, store_ofNat d _ _ (by rw [hinv.1]; omega)]
          simp only
          rw [hP1]
          exact ih (P + 1) _ (by omega) (by omega)
            (secondLoopInv_write pat P k d (by omega) hk1 hk2 hk3 hinv)
        · rw [if_neg hg, hP1]
          exact ih (P + 1) _ (by omega) (by omega)
            (secondLoopInv_skip pat P k d (by omega) (by omega) hk2 hinv)
    · rw [if_neg hlt]
      have : P = pat.length - 1 := by omega
      subst this
      exact ⟨d, rfl, hinv⟩

theorem make_delta2_spec (pat : List Byte) (b : Byte) (d : List Int)
    (hd : d.length = pat.length) (h1 : 0 < pat.length) (hn0 : pat.length ≤ INT_MAX) :
    ∃ d2, make_delta2 d (bufMem pat (some b)) pat.length = .ok d2 ∧ Delta2Table pat d2 := by
  have hn := int_max_lt_size_mod _ hn0
  obtain ⟨d1, hd1, hf⟩ := make_delta2_first_spec pat (some b) hn0 (pat.length + 1) pat.length 1 d
    (by omega) (by omega) (by omega) ⟨hd, fun q h1 h2 => by omega⟩
  obtain ⟨d2, hd2, hs⟩ := make_delta2_second_spec pat b h1 hn (pat.length - 1 + 1) 0 d1
    (by omega) (by omega) (secondLoopInv_init pat d1 hf)
  unfold make_delta2
  rw [hd1]
  simp only
  rw [toSize_pred pat.length h1 hn]
  simp only [Nat.cast_zero] at hd2
  refine ⟨d2, hd2, hs.1, fun j hj => ?_⟩
  obtain ⟨s, hs1, ⟨hs2, hs3⟩, hs4⟩ := hs.2 j hj
  refine ⟨s, hs1, ⟨hs2, ?_⟩, ?_⟩
  · rcases hs3 with h | ⟨h, _⟩
    · exact Or.inr h
    · exact Or.inl h
  · rintro s' ⟨hs'1, hs' | hs'⟩
    · exact hs4 s' ⟨hs'1, Or.inr ⟨hs', by omega⟩⟩
    · exact hs4 s' ⟨hs'1, Or.inl hs'⟩

theorem boyer_moore_inner_spec (string pat : List Byte) (spre pre : Option Byte) (a : Nat)
    (ha : a + pat.length ≤ string.length) :
    ∀ (fuel m : Nat), m ≤ pat.length → m < fuel →
      (∀ k, m ≤ k → k < pat.length → string[a + k]? = pat[k]?) →
      ∃ m', m' ≤ m ∧
        boyer_moore_inner (bufMem string spre) (bufMem pat pre) fuel
          ((a : Int) + (m : Int) - 1) ((m : Int) - 1)
          = .ok ((a : Int) + (m' : Int) - 1, (m' : Int) - 1) ∧
        (∀ k, m' ≤ k → k < pat.length → string[a + k]? = pat[k]?) ∧
        (0 < m' → string[a + (m' - 1)]? ≠ pat[m' - 1]?) := by
  intro fuel
  induction fuel with
  | zero => intro m _ h; omega
  | succ fuel ih =>
    intro m hm hf hinv
    unfold boyer_moore_inner
    by_cases hpos : 0 < m
    · rw [if_pos (by omega : (m : Int) - 1 ≥ 0)]
      have e1 : (a : Int) + (m : Int) - 1 = ((a + (m - 1) : Nat) : Int) := by omega
      have e2 : (m : Int) - 1 = ((m - 1 : Nat) : Int) := by omega
      have ea := List.getElem?_eq_getElem (l := string) (by omega : a + (m - 1) < string.length)
      have eb := List.getElem?_eq_getElem (l := pat) (by omega : m - 1 < pat.length)
      rw [e1, e2, bufMem_ofNat, bufMem_ofNat, ea, eb]
      simp only
      by_cases hab : string[a + (m - 1)] = pat[m - 1]
      · rw [if_pos hab]
        have e3 : ((a + (m - 1) : Nat) : Int) - 1 = (a : Int) + ((m - 1 : Nat) : Int) - 1 := by
          omega
        rw [e3]
        obtain ⟨m', h1, h2, h3, h4⟩ := ih (m - 1) (by omega) (by omega) (by
          intro k hk1 hk2
          by_cases hk : k = m - 1
          · subst hk
            rw [ea, eb, hab]
          · exact hinv k (by omega) hk2)
        exact ⟨m', by omega, h2, h3, h4⟩
      · rw [if_neg hab]
        refine ⟨m, le_refl _, ?_, hinv, fun _ => ?_⟩
        · rw [← e1, ← e2]
        · rw [ea, eb]
          intro h
          exact hab (Option.some.inj h)
    · have hm0 : m = 0 := by omega
      subst hm0
      rw [if_neg (by omega)]
      exact ⟨0, le_refl _, rfl, hinv, fun h => absurd h (by omega)⟩

theorem exists_rightmost (pat : List Byte) (c : Byte) :
    ∀ m x : Nat, x < m → pat[x]? = some c →
      ∃ r : Nat, x ≤ r ∧ r < m ∧ pat[r]? = some c ∧
        ∀ r' : Nat, r < r' → r' < m → pat[r']? ≠ some c := by
  intro m
  induction m with
  | zero => intro x hx; omega
  | succ m ih =>
    intro x hx hc
    by_cases hm : pat[m]? = some c
    · exact ⟨m, by omega, by omega, hm, fun r' h1 h2 => by omega⟩
    · have hxm : x ≠ m := fun h => hm (h ▸ hc)
      obtain ⟨r, h1, h2, h3, h4⟩ := ih x (by omega) hc
      refine ⟨r, h1, by omega, h3, fun r' hr1 hr2 => ?_⟩
      by_cases hr : r' = m
      · subst hr; exact hm
      · exact h4 r' hr1 (by omega)

/-- Every `delta1` entry is at most `patlen`, and at most the distance from any occurrence of
the byte to the last pattern index. -/
theorem delta1_bound (pat : List Byte) (d1 : List Int) (h : Delta1Inv pat pat.length d1)
    (c : Byte) :
    ∃ v : Int, d1[c.val]? = some v ∧ 0 ≤ v ∧ v ≤ (pat.length : Int) ∧
      ∀ x : Nat, pat[x]? = some c → v ≤ (pat.length : Int) - 1 - (x : Int) := by
  by_cases hocc : ∃ x : Nat, pat[x]? = some c
  · obtain ⟨x, hx⟩ := hocc
    have hxlt : x < pat.length := by
      by_contra hge
      rw [List.getElem?_eq_none (by omega)] at hx
      exact absurd hx (by simp)
    obtain ⟨r, h1, h2, h3, h4⟩ := exists_rightmost pat c pat.length x hxlt hx
    refine ⟨_, (h.2 c).2 r h2 h3 h4, by omega, by omega, fun y hy => ?_⟩
    have hylt : y < pat.length := by
      by_contra hge
      rw [List.getElem?_eq_none (by omega)] at hy
      exact absurd hy (by simp)
    have : y ≤ r := by
      by_contra hlt
      exact h4 y (by omega) hylt hy
    omega
  · refine ⟨_, (h.2 c).1 (fun r _ hr => hocc ⟨r, hr⟩), by omega, le_refl _, fun x hx => ?_⟩
    exact absurd ⟨x, hx⟩ hocc

theorem goodShift_length (pat : List Byte) (j : Nat) (hj : j < pat.length) :
    GoodShift pat j pat.length :=
  ⟨by omega, Or.inr ⟨hj, fun k h1 h2 => by omega⟩⟩

/-- An occurrence `t ≥ 1` places to the right of an alignment that mismatched at `j` makes
`t` a good-suffix shift at `j`. -/
theorem goodShift_of_occurs (string pat : List Byte) (a j t : Nat) (hj : j < pat.length)
    (ht : 1 ≤ t) (hne : string[a + j]? ≠ pat[j]?)
    (hm : ∀ k, j < k → k < pat.length → string[a + k]? = pat[k]?)
    (hocc : Occurs string pat (a + t)) : GoodShift pat j t := by
  have key : ∀ k, t ≤ k → k < pat.length → string[a + k]? = pat[k - t]? := by
    intro k hk1 hk2
    have := hocc.2 (k - t) (by omega)
    rw [show a + t + (k - t) = a + k from by omega] at this
    exact this
  refine ⟨ht, ?_⟩
  by_cases htj : t ≤ j
  · refine Or.inl ⟨htj, ?_, fun k hk1 hk2 => ?_⟩
    · rw [← key j htj hj]; exact hne
    · rw [← key k (by omega) hk2]; exact hm k hk1 hk2
  · refine Or.inr ⟨by omega, fun k hk1 hk2 => ?_⟩
    rw [← key k hk1 hk2]; exact hm k (by omega) hk2

/-- Bad-character rule: no occurrence starts `t` places to the right when the text byte under
pattern index `j` would have to sit left of every position allowed by `delta1`. -/
theorem badChar_no_occurrence (string pat : List Byte) (d1 : List Int)
    (h : Delta1Inv pat pat.length d1) (a j t : Nat) (c : Byte) (v : Int)
    (hj : j < pat.length) (hc : string[a + j]? = some c) (hv : d1[c.val]? = some v)
    (ht1 : 1 ≤ t) (ht : (t : Int) < v - ((pat.length : Int) - 1 - (j : Int))) :
    ¬ Occurs string pat (a + t) := by
  intro hocc
  obtain ⟨v', hv', _, hle, hb⟩ := delta1_bound pat d1 h c
  rw [hv] at hv'
  have hvv : v = v' := Option.some.inj hv'
  subst hvv
  have htj : t ≤ j := by omega
  have := hocc.2 (j - t) (by omega)
  rw [show a + t + (j - t) = a + j from by omega, hc] at this
  have := hb (j - t) this.symm
  omega

/-- One pass of the outer loop at an alignment `a` that fits in the text. -/
theorem boyer_moore_iter_spec (string pat : List Byte) (spre pre : Option Byte)
    (d1 d2 : List Int) (hd1 : d1.length = ALPHABET_LEN) (hd2 : d2.length = pat.length)
    (a : Nat) (ha : a + pat.length ≤ string.length) :
    (Occurs string pat a ∧
      boyer_moore_iter (bufMem string spre) (bufMem pat pre) pat.length d1 d2
        ((a : Int) + (pat.length : Int) - 1) = .ok (.found (a : Int))) ∨
    (∃ (j : Nat) (c : Byte) (v1 v2 : Int), j < pat.length ∧ string[a + j]? = some c ∧
      string[a + j]? ≠ pat[j]? ∧ (∀ k, j < k → k < pat.length → string[a + k]? = pat[k]?) ∧
      d1[c.val]? = some v1 ∧ d2[j]? = some v2 ∧
      boyer_moore_iter (bufMem string spre) (bufMem pat pre) pat.length d1 d2
        ((a : Int) + (pat.length : Int) - 1)
        = .ok (.mismatch ((a : Int) + (j : Int)) (j : Int) (BoyerMoore.max v1 v2))) := by
  obtain ⟨m', h1, h2, h3, h4⟩ := boyer_moore_inner_spec string pat spre pre a ha
    (pat.length + 1) pat.length (le_refl _) (by omega) (fun k hk1 hk2 => by omega)
  unfold boyer_moore_iter
  rw [h2]
  simp only
  by_cases hm : m' = 0
  · subst hm
    left
    refine ⟨⟨ha, fun t ht => h3 t (by omega) ht⟩, ?_⟩
    rw [if_pos (by omega)]
    congr 2
    omega
  · right
    rw [if_neg (by omega)]
    have e1 : (a : Int) + (m' : Int) - 1 = ((a + (m' - 1) : Nat) : Int) := by omega
    have e2 : (m' : Int) - 1 = ((m' - 1 : Nat) : Int) := by omega
    have ea := List.getElem?_eq_getElem (l := string) (by omega : a + (m' - 1) < string.length)
    rw [e1, e2, bufMem_ofNat, ea]
    simp only
    have hc1 : (string[a + (m' - 1)]).val < d1.length := by
      rw [hd1]; exact (string[a + (m' - 1)]).isLt
    have el1 := List.getElem?_eq_getElem (l := d1) hc1
    have el2 := List.getElem?_eq_getElem (l := d2) (by omega : m' - 1 < d2.length)
    rw [load_ofNat, load_ofNat, el1, el2]
    simp only
    refine ⟨m' - 1, string[a + (m' - 1)], _, _, by omega, ea, h4 (by omega),
      fun k hk1 hk2 => h3 k (by omega) hk2, el1, el2, ?_⟩
    congr 2

theorem max_spec (a b : Int) :
    a ≤ BoyerMoore.max a b ∧ b ≤ BoyerMoore.max a b ∧
      (BoyerMoore.max a b = a ∨ BoyerMoore.max a b = b) := by
  unfold BoyerMoore.max
  split <;> omega

theorem boyer_moore_scan_spec (string pat : List Byte) (spre pre : Option Byte)
    (d1 d2 : List Int) (hD1 : Delta1Inv pat pat.length d1) (hD2 : Delta2Table pat d2)
    (h1 : 0 < pat.length) (hb : string.length + pat.length < SIZE_MOD) :
    ∀ (fuel a : Nat), a ≤ string.length → string.length - a < fuel →
      (∀ a' : Nat, a' < a → ¬ Occurs string pat a') →
      ∃ r, boyer_moore_scan (bufMem string spre) string.length (bufMem pat pre) pat.length
          d1 d2 fuel ((a : Int) + (pat.length : Int) - 1) = .ok r ∧ Leftmost string pat r := by
  intro fuel
  induction fuel with
  | zero => intro a _ h; omega
  | succ fuel ih =>
    intro a ha hf hno
    unfold boyer_moore_scan
    have e0 : (a : Int) + (pat.length : Int) - 1 = ((a + pat.length - 1 : Nat) : Int) := by omega
    rw [e0, toSize_ofNat _ (by omega), ← e0]
    by_cases hlt : a + pat.length - 1 < string.length
    · rw [if_pos hlt]
      have hfit : a + pat.length ≤ string.length := by omega
      rcases boyer_moore_iter_spec string pat spre pre d1 d2 hD1.1 hD2.1 a hfit with
        ⟨hocc, hit⟩ | ⟨j, c, v1, v2, hj, hc, hne, hm, hv1, hv2, hit⟩
      · rw [hit]
        exact ⟨some (a : Int), rfl, a, rfl, hocc, hno⟩
      · rw [hit]
        simp only
        obtain ⟨s2, hs2, hg, hleast⟩ := hD2.2 j hj
        rw [hv2] at hs2
        have hv2' : v2 = (pat.length : Int) - 1 - (j : Int) + (s2 : Int) := Option.some.inj hs2
        have hs2n : s2 ≤ pat.length := hleast _ (goodShift_length pat j hj)
        have hs21 : 1 ≤ s2 := hg.1
        obtain ⟨v1', hv1', _, hv1n, _⟩ := delta1_bound pat d1 hD1 c
        rw [hv1] at hv1'
        have hvv : v1 = v1' := Option.some.inj hv1'
        subst hvv
        obtain ⟨hm1, hm2, hm3⟩ := max_spec v1 v2
        generalize BoyerMoore.max v1 v2 = M at hm1 hm2 hm3
        obtain ⟨s, hs⟩ : ∃ s : Nat, (s : Int) = M - ((pat.length : Int) - 1 - (j : Int)) :=
          ⟨(M - ((pat.length : Int) - 1 - (j : Int))).toNat, by omega⟩
        have e1 : (a : Int) + (j : Int) + M = ((a + s : Nat) : Int) + (pat.length : Int) - 1 := by
          omega
        rw [e1]
        apply ih (a + s) (by omega) (by omega)
        intro a' ha'
        by_cases hlo : a' < a
        · exact hno a' hlo
        · by_cases heq : a' = a
          · subst heq
            intro hocc
            exact hne (hocc.2 j hj)
          · obtain ⟨t, rfl⟩ : ∃ t, a' = a + t := ⟨a' - a, by omega⟩
            by_cases ht2 : t < s2
            · intro hocc
              have := hleast t (goodShift_of_occurs string pat a j t hj (by omega) hne hm hocc)
              omega
            · exact badChar_no_occurrence string pat d1 hD1 a j t c v1 hj hc hv1 (by omega)
                (by omega)
    · rw [if_neg hlt]
      refine ⟨none, rfl, fun k hocc => ?_⟩
      by_cases hk : k < a
      · exact hno k hk hocc
      · have := hocc.1
        omega

theorem naive_scan_leftmost (string pat : List Byte) :
    ∀ (fuel k : Nat), k + fuel = string.length + 1 →
      (∀ k' : Nat, k' < k → ¬ Occurs string pat k') →
      Leftmost string pat (naive_scan string pat fuel k) := by
  intro fuel
  induction fuel with
  | zero =>
    intro k hk hno
    unfold naive_scan
    intro k' hocc
    by_cases h : k' < k
    · exact hno k' h hocc
    · have := hocc.1
      omega
  | succ fuel ih =>
    intro k hk hno
    unfold naive_scan
    by_cases hocc : Occurs string pat k
    · rw [if_pos hocc]
      exact ⟨k, rfl, hocc, hno⟩
    · rw [if_neg hocc]
      apply ih (k + 1) (by omega)
      intro k' hk'
      by_cases h : k' = k
      · subst h; exact hocc
      · exact hno k' (by omega)

theorem naive_search_leftmost (string pat : List Byte) :
    Leftmost string pat (naive_search string pat) :=
  naive_scan_leftmost string pat (string.length + 1) 0 (by omega) (fun k' h => by omega)

theorem leftmost_unique (string pat : List Byte) (r r' : Option Int)
    (h : Leftmost string pat r) (h' : Leftmost string pat r') : r = r' := by
  cases r with
  | none =>
    cases r' with
    | none => rfl
    | some k' =>
      obtain ⟨k, _, hk, _⟩ := h'
      exact absurd hk (h k)
  | some k =>
    obtain ⟨a, rfl, ha1, ha2⟩ := h
    cases r' with
    | none => exact absurd ha1 (h' a)
    | some k' =>
      obtain ⟨a', rfl, ha'1, ha'2⟩ := h'
      have h1 : ¬ a' < a := fun hlt => ha2 a' hlt ha'1
      have h2 : ¬ a < a' := fun hlt => ha'2 a hlt ha1
      have : a = a' := by omega
      rw [this]

/-- For a non-empty pattern `boyer_moore` returns the leftmost occurrence. -/
theorem boyer_moore_leftmost (string pat : List Byte) (spre : Option Byte) (b : Byte)
    (fuel : Nat) (h1 : 0 < pat.length) (hn : pat.length ≤ INT_MAX)
    (hs : string.length ≤ PTRDIFF_MAX) (hf : string.length < fuel) :
    ∃ r, boyer_moore fuel (bufMem string spre) string.length (bufMem pat (some b)) pat.length
        = .ok r ∧ Leftmost string pat r := by
  have hn' : pat.length < SIZE_MOD := by unfold INT_MAX at hn; unfold SIZE_MOD; omega
  have hb : string.length + pat.length < SIZE_MOD := by
    unfold INT_MAX at hn; unfold PTRDIFF_MAX at hs; unfold SIZE_MOD; omega
  obtain ⟨d1, hd1, hD1⟩ := make_delta1_spec pat (some b) (List.replicate ALPHABET_LEN 0)
    (List.length_replicate _ _) hn'
  obtain ⟨d2, hd2, hD2⟩ := make_delta2_spec pat b (List.replicate pat.length 0)
    (List.length_replicate _ _) h1 hn
  obtain ⟨r, hr, hl⟩ := boyer_moore_scan_spec string pat spre (some b) d1 d2 hD1 hD2 h1 hb
    fuel 0 (by omega) (by omega) (fun a' h => by omega)
  unfold boyer_moore
  rw [hd1]
  simp only
  rw [hd2]
  simp only
  rw [if_neg (by omega)]
  simp only [Nat.cast_zero, zero_add] at hr
  exact ⟨r, hr, hl⟩

theorem boyer_moore_eq_naive (string pat : List Byte) (spre : Option Byte) (b : Byte)
    (fuel : Nat) (h1 : 0 < pat.length) (hn : pat.length ≤ INT_MAX)
    (hs : string.length ≤ PTRDIFF_MAX) (hf : string.length < fuel) :
    boyer_moore fuel (bufMem string spre) string.length (bufMem pat (some b)) pat.length
      = .ok (naive_search string pat) := by
  obtain ⟨r, hr, hl⟩ := boyer_moore_leftmost string pat spre b fuel h1 hn hs hf
  rw [hr, leftmost_unique string pat r _ hl (naive_search_leftmost string pat)]

/-- With an empty pattern the table construction that precedes the `patlen == 0` test
reads outside the pattern. -/
theorem make_delta2_empty_fault (pre : Option Byte) (d : List Int) :
    make_delta2 d (bufMem [] pre) 0 = .fault := by
  rfl

theorem boyer_moore_empty_fault (fuel : Nat) (string : Mem) (stringlen : Nat)
    (pre : Option Byte) : boyer_moore fuel string stringlen (bufMem [] pre) 0 = .fault := by
  obtain ⟨d1, hd1, _⟩ := make_delta1_spec [] pre (List.replicate ALPHABET_LEN 0)
    (List.length_replicate _ _) (by decide)
  simp only [List.length_nil] at hd1
  unfold boyer_moore
  rw [hd1]
  simp only
  rw [show List.replicate 0 (0 : Int) = [] from rfl, make_delta2_empty_fault]

/-- Facts about a pass of the outer loop that ends in a mismatch, at an alignment `a` that
fits in the text: the pattern cursor is a valid index, the bytes under the cursors differ, and
the shift moves the alignment by `s` with `1 ≤ s ≤ patlen`. -/
theorem boyer_moore_iter_mismatch (string pat : List Byte) (spre pre : Option Byte)
    (d1 d2 : List Int) (hD1 : Delta1Inv pat pat.length d1) (hD2 : Delta2Table pat d2)
    (a : Nat) (ha : a + pat.length ≤ string.length) (i1 j shift : Int)
    (hit : boyer_moore_iter (bufMem string spre) (bufMem pat pre) pat.length d1 d2
      ((a : Int) + (pat.length : Int) - 1) = .ok (.mismatch i1 j shift)) :
    ∃ (jn : Nat) (c : Byte) (v1 v2 : Int) (s : Nat), j = (jn : Int) ∧ jn < pat.length ∧
      i1 = (a : Int) + (jn : Int) ∧ string[a + jn]? = some c ∧ string[a + jn]? ≠ pat[jn]? ∧
      d1[c.val]? = some v1 ∧ d2[jn]? = some v2 ∧ shift = BoyerMoore.max v1 v2 ∧
      1 ≤ s ∧ s ≤ pat.length ∧
      shift = (pat.length : Int) - 1 - (jn : Int) + (s : Int) := by
  rcases boyer_moore_iter_spec string pat spre pre d1 d2 hD1.1 hD2.1 a ha with
    ⟨_, hfound⟩ | ⟨jn, c, v1, v2, hj, hc, hne, _, hv1, hv2, hmis⟩
  · rw [hfound] at hit
    exact absurd hit (by simp)
  · rw [hmis] at hit
    have hinj := Res.ok.inj hit
    have h1 : (a : Int) + (jn : Int) = i1 := by injection hinj
    have h2 : (jn : Int) = j := by injection hinj
    have h3 : BoyerMoore.max v1 v2 = shift := by injection hinj
    obtain ⟨s2, hs2, hg, hleast⟩ := hD2.2 jn hj
    rw [hv2] at hs2
    have hv2' : v2 = (pat.length : Int) - 1 - (jn : Int) + (s2 : Int) := Option.some.inj hs2
    have hs2n : s2 ≤ pat.length := hleast _ (goodShift_length pat jn hj)
    have hs21 : 1 ≤ s2 := hg.1
    obtain ⟨v1', hv1', _, hv1n, _⟩ := delta1_bound pat d1 hD1 c
    rw [hv1] at hv1'
    have hvv : v1 = v1' := Option.some.inj hv1'
    subst hvv
    obtain ⟨hm1, hm2, hm3⟩ := max_spec v1 v2
    refine ⟨jn, c, v1, v2, (shift - ((pat.length : Int) - 1 - (jn : Int))).toNat, h2.symm, hj,
      h1.symm, hc, hne, hv1, hv2, h3.symm, ?_, ?_, ?_⟩ <;> omega

/-- Every cursor with which the outer loop is entered is the right end of an alignment. -/
theorem reached_alignment (string pat : List Byte) (spre pre : Option Byte)
    (d1 d2 : List Int) (hD1 : Delta1Inv pat pat.length d1) (hD2 : Delta2Table pat d2)
    (hb : string.length + pat.length < SIZE_MOD) (h1 : 0 < pat.length) (i : Int)
    (hr : Reached (bufMem string spre) string.length (bufMem pat pre) pat.length d1 d2 i) :
    ∃ a : Nat, i = (a : Int) + (pat.length : Int) - 1 ∧ a ≤ string.length := by
  induction hr with
  | start => exact ⟨0, by omega, by omega⟩
  | step i i1 j shift _ hlt hit ih =>
    obtain ⟨a, rfl, ha⟩ := ih
    have e0 : (a : Int) + (pat.length : Int) - 1 = ((a + pat.length - 1 : Nat) : Int) := by omega
    rw [e0, toSize_ofNat _ (by omega)] at hlt
    obtain ⟨jn, c, v1, v2, s, rfl, hj, rfl, _, _, _, _, _, hs1, hsn, rfl⟩ :=
      boyer_moore_iter_mismatch string pat spre pre d1 d2 hD1 hD2 a (by omega) i1 j shift hit
    exact ⟨a + s, by omega, by omega⟩

theorem getElem?_lt_of_eq_some (pat : List Byte) (r : Nat) (c : Byte) (h : pat[r]? = some c) :
    r < pat.length := by
  by_contra hge
  rw [List.getElem?_eq_none (by omega)] at h
  exact absurd h (by simp)

theorem bufMem_none_eq_some (bs : List Byte) (x : Int) (c : Byte)
    (h : bufMem bs none x = some c) : 0 ≤ x ∧ bs[x.toNat]? = some c := by
  unfold bufMem at h
  by_cases hx : 0 ≤ x
  · rw [if_pos hx] at h
    exact ⟨hx, h⟩
  · rw [if_neg hx] at h
    split at h <;> exact absurd h (by simp)

theorem bufMem_eq_some_of_nonneg (bs : List Byte) (pre : Option Byte) (x : Int) (c : Byte)
    (hx : 0 ≤ x) (h : bufMem bs pre x = some c) : bs[x.toNat]? = some c := by
  rw [bufMem_nonneg bs pre x hx] at h
  exact h

/-- Whatever the memories hold, the comparison loop only moves left over equal bytes. -/
theorem boyer_moore_inner_sound (string pat : Mem) :
    ∀ (fuel : Nat) (i j i1 j1 : Int),
      boyer_moore_inner string pat fuel i j = .ok (i1, j1) → -1 ≤ j →
      -1 ≤ j1 ∧ j1 ≤ j ∧ i1 - j1 = i - j ∧
        ∀ t : Int, j1 < t → t ≤ j → ∃ c, string (i - j + t) = some c ∧ pat t = some c := by
  intro fuel
  induction fuel with
  | zero =>
    intro i j i1 j1 h
    unfold boyer_moore_inner at h
    exact absurd h (by simp)
  | succ fuel ih =>
    intro i j i1 j1 h hj
    unfold boyer_moore_inner at h
    by_cases hj0 : j ≥ 0
    · rw [if_pos hj0] at h
      cases hs : string i with
      | none => rw [hs] at h; exact absurd h (by simp)
      | some a =>
        cases hp : pat j with
        | none => rw [hs, hp] at h; exact absurd h (by simp)
        | some c =>
          rw [hs, hp] at h
          simp only at h
          by_cases hac : a = c
          · rw [if_pos hac] at h
            obtain ⟨h1, h2, h3, h4⟩ := ih (i - 1) (j - 1) i1 j1 h (by omega)
            refine ⟨h1, by omega, by omega, fun t ht1 ht2 => ?_⟩
            by_cases htj : t = j
            · subst htj
              refine ⟨a, ?_, by rw [hp, hac]⟩
              rw [show i - t + t = i from by omega, hs]
            · have := h4 t ht1 (by omega)
              rw [show i - 1 - (j - 1) + t = i - j + t from by omega] at this
              exact this
          · rw [if_neg hac] at h
            have hinj := Res.ok.inj h
            have e1 : i = i1 := by injection hinj
            have e2 : j = j1 := by injection hinj
            subst e1; subst e2
            exact ⟨by omega, le_refl _, rfl, fun t ht1 ht2 => by omega⟩
    · rw [if_neg hj0] at h
      have hinj := Res.ok.inj h
      have e1 : i = i1 := by injection hinj
      have e2 : j = j1 := by injection hinj
      subst e1; subst e2
      exact ⟨by omega, le_refl _, rfl, fun t ht1 ht2 => by omega⟩

/-- Whatever the tables hold, an offset reported by one pass is an occurrence. -/
theorem boyer_moore_iter_sound (string pat : List Byte) (pre : Option Byte)
    (d1 d2 : List Int) (h1 : 0 < pat.length) (i k : Int)
    (h : boyer_moore_iter (bufMem string none) (bufMem pat pre) pat.length d1 d2 i
      = .ok (.found k)) :
    ∃ k0 : Nat, k = (k0 : Int) ∧ Occurs string pat k0 := by
  unfold boyer_moore_iter at h
  cases hin : boyer_moore_inner (bufMem string none) (bufMem pat pre) (pat.length + 1) i
      ((pat.length : Int) - 1) with
  | fault => rw [hin] at h; exact absurd h (by simp)
  | timeout => rw [hin] at h; exact absurd h (by simp)
  | ok r =>
    obtain ⟨i1, j1⟩ := r
    rw [hin] at h
    simp only at h
    obtain ⟨hj1, _, hij, hall⟩ := boyer_moore_inner_sound _ _ _ _ _ _ _ hin (by omega)
    by_cases hneg : j1 < 0
    · rw [if_pos hneg] at h
      have hinj := Res.ok.inj h
      have hk : i1 + 1 = k := by injection hinj
      have hocc : ∀ t : Nat, t < pat.length →
          0 ≤ i - ((pat.length : Int) - 1) + (t : Int) ∧
          string[(i - ((pat.length : Int) - 1) + (t : Int)).toNat]? = pat[t]? := by
        intro t ht
        obtain ⟨c, hc1, hc2⟩ := hall (t : Int) (by omega) (by omega)
        obtain ⟨hx, hsc⟩ := bufMem_none_eq_some string _ c hc1
        have hpc := bufMem_eq_some_of_nonneg pat pre (t : Int) c (by omega) hc2
        rw [Int.toNat_ofNat] at hpc
        exact ⟨hx, by rw [hsc, hpc]⟩
      have h0 := (hocc 0 h1).1
      refine ⟨(i - ((pat.length : Int) - 1)).toNat, by omega, ?_, fun t ht => ?_⟩
      · obtain ⟨hx, hlast⟩ := hocc (pat.length - 1) (by omega)
        rw [List.getElem?_eq_getElem (by omega : pat.length - 1 < pat.length)] at hlast
        have := getElem?_lt_of_eq_some string _ _ hlast
        omega
      · obtain ⟨hx, ht2⟩ := hocc t ht
        rw [show (i - ((pat.length : Int) - 1)).toNat + t
          = (i - ((pat.length : Int) - 1) + (t : Int)).toNat from by omega]
        exact ht2
    · rw [if_neg hneg] at h
      cases hs : bufMem string none i1 with
      | none => rw [hs] at h; exact absurd h (by simp)
      | some c =>
        rw [hs] at h
        simp only at h
        cases hl1 : load d1 (c.val : Int) with
        | none => rw [hl1] at h; exact absurd h (by simp)
        | some v1 =>
          cases hl2 : load d2 j1 with
          | none => rw [hl1, hl2] at h; exact absurd h (by simp)
          | some v2 => rw [hl1, hl2] at h; exact absurd h (by simp)

/-- Whatever the tables and the fuel, an offset returned by the scan is an occurrence. -/
theorem boyer_moore_scan_sound (string pat : List Byte) (pre : Option Byte)
    (d1 d2 : List Int) (h1 : 0 < pat.length) :
    ∀ (fuel : Nat) (i k : Int),
      boyer_moore_scan (bufMem string none) string.length (bufMem pat pre) pat.length d1 d2
        fuel i = .ok (some k) →
      ∃ k0 : Nat, k = (k0 : Int) ∧ Occurs string pat k0 := by
  intro fuel
  induction fuel with
  | zero =>
    intro i k h
    unfold boyer_moore_scan at h
    exact absurd h (by simp)
  | succ fuel ih =>
    intro i k h
    unfold boyer_moore_scan at h
    by_cases hlt : toSize i < string.length
    · rw [if_pos hlt] at h
      cases hit : boyer_moore_iter (bufMem string none) (bufMem pat pre) pat.length d1 d2 i with
      | fault => rw [hit] at h; exact absurd h (by simp)
      | timeout => rw [hit] at h; exact absurd h (by simp)
      | ok it =>
        rw [hit] at h
        cases it with
        | found k1 =>
          simp only at h
          have hk : k1 = k := by
            have := Res.ok.inj h
            exact Option.some.inj this
          subst hk
          exact boyer_moore_iter_sound string pat pre d1 d2 h1 i k1 hit
        | mismatch i1 j shift =>
          simp only at h
          exact ih _ _ h
    · rw [if_neg hlt] at h
      exact absurd h (by simp)

/-- Whatever the byte in front of the pattern and the fuel, an offset returned by
`boyer_moore` for a non-empty pattern is an occurrence. -/
theorem boyer_moore_sound (string pat : List Byte) (pre : Option Byte) (fuel : Nat)
    (h1 : 0 < pat.length) (k : Int)
    (h : boyer_moore fuel (bufMem string none) string.length (bufMem pat pre) pat.length
      = .ok (some k)) :
    ∃ k0 : Nat, k = (k0 : Int) ∧ Occurs string pat k0 := by
  unfold boyer_moore at h
  cases hd1 : make_delta1 (List.replicate ALPHABET_LEN 0) (bufMem pat pre) pat.length with
  | fault => rw [hd1] at h; exact absurd h (by simp)
  | timeout => rw [hd1] at h; exact absurd h (by simp)
  | ok d1 =>
    rw [hd1] at h
    simp only at h
    cases hd2 : make_delta2 (List.replicate pat.length 0) (bufMem pat pre) pat.length with
    | fault => rw [hd2] at h; exact absurd h (by simp)
    | timeout => rw [hd2] at h; exact absurd h (by simp)
    | ok d2 =>
      rw [hd2] at h
      simp only at h
      rw [if_neg (by omega)] at h
      exact boyer_moore_scan_sound string pat pre d1 d2 h1 fuel _ k h

/-! Claims. -/

/-- C1, at the failing input: for every text, `boyer_moore` called with the empty pattern
stops with an out-of-range access in `make_delta2` (built before the `patlen == 0` test),
whereas the naive left-to-right scan reports offset 0. -/
theorem boyer_moore_differs_from_naive_on_empty_pattern (string : List Byte) (fuel : Nat) :
    boyer_moore fuel (bufMem string none) string.length (bufMem [] none) 0 = .fault ∧
      naive_search string [] = some 0 := by
  refine ⟨boyer_moore_empty_fault fuel _ _ none, ?_⟩
  unfold naive_search naive_scan
  rw [if_pos ⟨by simp, fun t ht => by simp at ht⟩]
  rfl

/-- C2: for every text and every non-empty pattern, an offset `k` returned by `boyer_moore`
(whatever the byte in front of the pattern and the fuel) satisfies `k + patlen ≤ stringlen` and
`string[k+t] = pat[t]` for all `t < patlen`, a match at offset 0 included; and (the byte in
front of the pattern being readable, with any value `b`) `boyer_moore` returns a result, which
is no-match when the pattern does not occur in the text. -/
theorem boyer_moore_no_false_positive (string pat : List Byte) (b : Byte) (fuel : Nat)
    (h1 : 0 < pat.length) (hn : pat.length ≤ INT_MAX) (hs : string.length ≤ PTRDIFF_MAX)
    (hf : string.length < fuel) :
    (∀ (pre : Option Byte) (fuel0 : Nat) (k : Int),
      boyer_moore fuel0 (bufMem string none) string.length (bufMem pat pre) pat.length
        = .ok (some k) →
      ∃ k0 : Nat, k = (k0 : Int) ∧ k0 + pat.length ≤ string.length ∧
        ∀ t : Nat, t < pat.length → string[k0 + t]? = pat[t]?) ∧
    ∃ r, boyer_moore fuel (bufMem string none) string.length (bufMem pat (some b)) pat.length
        = .ok r ∧
      ((∀ k : Nat, ¬ Occurs string pat k) → r = none) := by
  constructor
  · intro pre fuel0 k h
    obtain ⟨k0, hk0, hocc⟩ := boyer_moore_sound string pat pre fuel0 h1 k h
    exact ⟨k0, hk0, hocc.1, hocc.2⟩
  · obtain ⟨r, hr, hl⟩ := boyer_moore_leftmost string pat none b fuel h1 hn hs hf
    refine ⟨r, hr, fun hno => ?_⟩
    cases r with
    | none => rfl
    | some k =>
      obtain ⟨k0, _, hocc, _⟩ := hl
      exact absurd hocc (hno k0)

/-- Witness for C2 at text "aaaa", pattern "b": the result is no-match. -/
theorem boyer_moore_no_false_positive_witness :
    (0 < ([98] : List Byte).length ∧ ([98] : List Byte).length ≤ INT_MAX ∧
      ([97, 97, 97, 97] : List Byte).length ≤ PTRDIFF_MAX ∧
      ([97, 97, 97, 97] : List Byte).length < 5) ∧
    boyer_moore 5 (bufMem [97, 97, 97, 97] none) ([97, 97, 97, 97] : List Byte).length
      (bufMem [98] (some 0)) ([98] : List Byte).length = .ok none := by
  refine ⟨⟨by decide, by decide, by decide, by decide⟩, ?_⟩
  obtain ⟨_, r, hr, h3⟩ := boyer_moore_no_false_positive [97, 97, 97, 97] [98] 0 5
    (by decide) (by decide) (by decide) (by decide)
  rw [hr, h3 ?_]
  intro k hocc
  have hk := hocc.1
  have h0 := hocc.2 0 (by decide)
  have hk4 : k < 4 := by simp at hk; omega
  interval_cases k <;> simp at h0

/-- C3, at the failing input: for every text, `boyer_moore` called with `patlen = 0` does not
return offset 0; it stops with an out-of-range access, because `make_delta2` runs before the
`patlen == 0` test and its second loop, whose bound `patlen-1` wraps, reads the pattern. -/
theorem boyer_moore_empty_pattern_faults (string : List Byte) (spre pre : Option Byte)
    (fuel : Nat) :
    boyer_moore fuel (bufMem string spre) string.length (bufMem [] pre) 0 = .fault :=
  boyer_moore_empty_fault fuel _ _ pre

/-- C4, at the failing input: the empty pattern is a prefix of the empty text (text = pattern),
yet `boyer_moore` stops with an out-of-range access instead of returning offset 0. -/
theorem boyer_moore_self_match_empty_faults :
    ([] : List Byte) <+: ([] : List Byte) ∧
      boyer_moore 1 (bufMem [] none) 0 (bufMem [] none) 0 = .fault :=
  ⟨⟨[], rfl⟩, boyer_moore_empty_fault 1 _ _ none⟩

/-- For a non-empty pattern that is a prefix of the text, `boyer_moore` returns offset 0. -/
theorem boyer_moore_prefix_nonempty (string pat : List Byte) (b : Byte) (fuel : Nat)
    (hp : pat <+: string) (h1 : 0 < pat.length) (hn : pat.length ≤ INT_MAX)
    (hs : string.length ≤ PTRDIFF_MAX) (hf : string.length < fuel) :
    boyer_moore fuel (bufMem string none) string.length (bufMem pat (some b)) pat.length
      = .ok (some 0) := by
  obtain ⟨r, hr, hl⟩ := boyer_moore_leftmost string pat none b fuel h1 hn hs hf
  have hocc : Occurs string pat 0 := by
    obtain ⟨t, rfl⟩ := hp
    refine ⟨by simp, fun i hi => ?_⟩
    rw [Nat.zero_add, List.getElem?_append_left hi]
  have : Leftmost string pat (some 0) := ⟨0, rfl, hocc, fun k hk => by omega⟩
  rw [hr, leftmost_unique string pat r _ hl this]

/-- C5: for every pattern and every byte `c`, `make_delta1` yields `delta1[c] = patlen` when
`c` does not occur in the pattern and `delta1[c] = patlen - 1 - r` when `r` is the index of the
rightmost occurrence of `c`; the entry of the last pattern byte is 0, and for `patlen = 0` every
entry is 0. -/
theorem make_delta1_rightmost (pat : List Byte) (pre : Option Byte) (d : List Int)
    (hd : d.length = ALPHABET_LEN) (hn : pat.length ≤ INT_MAX) :
    ∃ d1, make_delta1 d (bufMem pat pre) pat.length = .ok d1 ∧ d1.length = ALPHABET_LEN ∧
      ∀ c : Byte,
        ((∀ r : Nat, pat[r]? ≠ some c) → d1[c.val]? = some (pat.length : Int)) ∧
        (∀ r : Nat, pat[r]? = some c → (∀ r' : Nat, r < r' → pat[r']? ≠ some c) →
          d1[c.val]? = some ((pat.length : Int) - 1 - (r : Int))) ∧
        (pat[pat.length - 1]? = some c → d1[c.val]? = some 0) ∧
        (pat.length = 0 → d1[c.val]? = some 0) := by
  obtain ⟨d1, h, hl, hinv⟩ := make_delta1_spec pat pre d hd (int_max_lt_size_mod _ hn)
  refine ⟨d1, h, hl, fun c => ⟨fun hno => (hinv c).1 (fun r _ => hno r), fun r hr hlast => ?_,
    fun hlast => ?_, fun h0 => ?_⟩⟩
  · exact (hinv c).2 r (getElem?_lt_of_eq_some pat r c hr) hr (fun r' h1 _ => hlast r' h1)
  · have hlt := getElem?_lt_of_eq_some pat _ c hlast
    have := (hinv c).2 (pat.length - 1) hlt hlast (fun r' h1 h2 => by omega)
    rw [this]
    congr 1
    omega
  · have := (hinv c).1 (fun r hr => by omega)
    rw [this, h0]
    rfl

/-- Witness for C5 at the pattern "ABCAB". -/
theorem make_delta1_rightmost_witness :
    ((List.replicate ALPHABET_LEN (0 : Int)).length = ALPHABET_LEN ∧
      ([65, 66, 67, 65, 66] : List Byte).length ≤ INT_MAX) ∧
    ∃ d1, make_delta1 (List.replicate ALPHABET_LEN 0) (bufMem [65, 66, 67, 65, 66] none)
        ([65, 66, 67, 65, 66] : List Byte).length = .ok d1 ∧ d1.length = ALPHABET_LEN ∧
      d1[66]? = some 0 := by
  refine ⟨⟨List.length_replicate _ _, by decide⟩, ?_⟩
  obtain ⟨d1, h, hl, hc⟩ := make_delta1_rightmost [65, 66, 67, 65, 66] none
    (List.replicate ALPHABET_LEN 0) (List.length_replicate _ _) (by decide)
  exact ⟨d1, h, hl, (hc 66).2.2.1 (by decide)⟩

/-- C6 as stated fails: for the pattern "ABCAB" the table built by `make_delta1` does not have
`delta1['A'] = 2`. -/
theorem delta1_of_ABCAB_refutes_two :
    ¬ ∃ d1, make_delta1 (List.replicate ALPHABET_LEN 0) (bufMem [65, 66, 67, 65, 66] none) 5
        = .ok d1 ∧ d1[65]? = some 2 ∧ d1[90]? = some 5 := by
  rintro ⟨d1, h, hA, _⟩
  obtain ⟨d1', h', _, hinv⟩ := make_delta1_spec [65, 66, 67, 65, 66] none
    (List.replicate ALPHABET_LEN 0) (List.length_replicate _ _) (by decide)
  rw [show ([65, 66, 67, 65, 66] : List Byte).length = 5 from rfl] at h'
  rw [h] at h'
  have hd := Res.ok.inj h'
  subst hd
  have := (hinv 65).2 3 (by decide) (by decide) (by
    intro r' h1 h2
    have h2' : r' < 5 := h2
    interval_cases r'
    decide)
  rw [show ((65 : Byte).val) = 65 from rfl] at this
  rw [this] at hA
  exact absurd hA (by decide)

/-- C6 amended: for the pattern "ABCAB" (`patlen = 5`), `make_delta1` yields
`delta1['A'] = 1` and `delta1['Z'] = 5`. -/
theorem delta1_of_ABCAB_amended :
    ∃ d1, make_delta1 (List.replicate ALPHABET_LEN 0) (bufMem [65, 66, 67, 65, 66] none) 5
        = .ok d1 ∧ d1[65]? = some 1 ∧ d1[90]? = some 5 := by
  obtain ⟨d1, h, _, hinv⟩ := make_delta1_spec [65, 66, 67, 65, 66] none
    (List.replicate ALPHABET_LEN 0) (List.length_replicate _ _) (by decide)
  refine ⟨d1, h, ?_, ?_⟩
  · exact (hinv 65).2 3 (by decide) (by decide) (by
      intro r' h1 h2
      have h2' : r' < 5 := h2
      interval_cases r'
      decide)
  · exact (hinv 90).1 (by
      intro r hr
      have hr' : r < 5 := hr
      interval_cases r <;> decide)

/-- C7: for every text and every non-empty pattern the two tables are built, and every pass
of the outer loop of `boyer_moore` (entered with a cursor `i` the scan reaches, `i < stringlen`)
either finds a match or stops at a mismatch `string[i1] ≠ pat[j]` with `j ≥ 0`, where the shift
`max(delta1[string[i1]], delta2[j])` is at least 1. -/
theorem boyer_moore_shift_ge_one (string pat : List Byte) (b : Byte)
    (h1 : 0 < pat.length) (hn : pat.length ≤ INT_MAX) (hs : string.length ≤ PTRDIFF_MAX) :
    ∃ d1 d2, make_delta1 (List.replicate ALPHABET_LEN 0) (bufMem pat (some b)) pat.length
        = .ok d1 ∧
      make_delta2 (List.replicate pat.length 0) (bufMem pat (some b)) pat.length = .ok d2 ∧
      ∀ i : Int,
        Reached (bufMem string none) string.length (bufMem pat (some b)) pat.length d1 d2 i →
        toSize i < string.length →
        (∃ k, boyer_moore_iter (bufMem string none) (bufMem pat (some b)) pat.length d1 d2 i
            = .ok (.found k)) ∨
        (∃ (i1 j : Int) (c p : Byte) (v1 v2 : Int),
          boyer_moore_iter (bufMem string none) (bufMem pat (some b)) pat.length d1 d2 i
            = .ok (.mismatch i1 j (BoyerMoore.max v1 v2)) ∧
          0 ≤ j ∧ bufMem string none i1 = some c ∧ bufMem pat (some b) j = some p ∧ c ≠ p ∧
          load d1 (c.val : Int) = some v1 ∧ load d2 j = some v2 ∧
          1 ≤ BoyerMoore.max v1 v2) := by
  have hn' := int_max_lt_size_mod _ hn
  have hb : string.length + pat.length < SIZE_MOD := by
    unfold INT_MAX at hn; unfold PTRDIFF_MAX at hs; unfold SIZE_MOD; omega
  obtain ⟨d1, hd1, hD1⟩ := make_delta1_spec pat (some b) (List.replicate ALPHABET_LEN 0)
    (List.length_replicate _ _) hn'
  obtain ⟨d2, hd2, hD2⟩ := make_delta2_spec pat b (List.replicate pat.length 0)
    (List.length_replicate _ _) h1 hn
  refine ⟨d1, d2, hd1, hd2, fun i hreach hlt => ?_⟩
  obtain ⟨a, rfl, ha⟩ := reached_alignment string pat none (some b) d1 d2 hD1 hD2 hb h1 i hreach
  have e0 : (a : Int) + (pat.length : Int) - 1 = ((a + pat.length - 1 : Nat) : Int) := by omega
  rw [e0, toSize_ofNat _ (by omega)] at hlt
  have hfit : a + pat.length ≤ string.length := by omega
  rcases boyer_moore_iter_spec string pat none (some b) d1 d2 hD1.1 hD2.1 a hfit with
    ⟨_, hfound⟩ | ⟨jn, c, v1, v2, hj, hc, hne, _, hv1, hv2, hmis⟩
  · exact Or.inl ⟨_, hfound⟩
  · right
    obtain ⟨jn', c', v1', v2', s, hj1, hj2, _, _, _, _, _, hsh, hs1, _, hsh2⟩ :=
      boyer_moore_iter_mismatch string pat none (some b) d1 d2 hD1 hD2 a hfit _ _ _ hmis
    have hpj := List.getElem?_eq_getElem (l := pat) hj
    refine ⟨_, _, c, pat[jn], v1, v2, hmis, by omega, ?_, ?_, ?_, ?_, ?_, ?_⟩
    · have e1 : (a : Int) + (jn : Int) = ((a + jn : Nat) : Int) := by omega
      rw [e1, bufMem_ofNat, hc]
    · rw [bufMem_ofNat, hpj]
    · intro hcp
      rw [hc, hpj, hcp] at hne
      exact hne rfl
    · rw [load_ofNat, hv1]
    · rw [load_ofNat, hv2]
    · have hjj : jn' = jn := by omega
      subst hjj
      omega

/-- Witness for C7 at text "ba", pattern "a", first pass of the outer loop. -/
theorem boyer_moore_shift_ge_one_witness :
    (0 < ([97] : List Byte).length ∧ ([97] : List Byte).length ≤ INT_MAX ∧
      ([98, 97] : List Byte).length ≤ PTRDIFF_MAX) ∧
    ∃ d1 d2, make_delta1 (List.replicate ALPHABET_LEN 0) (bufMem [97] (some 0))
        ([97] : List Byte).length = .ok d1 ∧
      make_delta2 (List.replicate ([97] : List Byte).length 0) (bufMem [97] (some 0))
        ([97] : List Byte).length = .ok d2 ∧
      ((∃ k, boyer_moore_iter (bufMem [98, 97] none) (bufMem [97] (some 0))
          ([97] : List Byte).length d1 d2 0 = .ok (.found k)) ∨
        ∃ (i1 j : Int) (v1 v2 : Int),
          boyer_moore_iter (bufMem [98, 97] none) (bufMem [97] (some 0))
            ([97] : List Byte).length d1 d2 0 = .ok (.mismatch i1 j (BoyerMoore.max v1 v2)) ∧
          1 ≤ BoyerMoore.max v1 v2) := by
  refine ⟨⟨by decide, by decide, by decide⟩, ?_⟩
  obtain ⟨d1, d2, hd1, hd2, hall⟩ := boyer_moore_shift_ge_one [98, 97] [97] 0
    (by decide) (by decide) (by decide)
  refine ⟨d1, d2, hd1, hd2, ?_⟩
  rcases hall 0 Reached.start (by decide) with
    ⟨k, hk⟩ | ⟨i1, j, c, p, v1, v2, hit, _, _, _, _, _, _, hge⟩
  · exact Or.inl ⟨k, hk⟩
  · exact Or.inr ⟨i1, j, v1, v2, hit, hge⟩

/-- C8: for every word and every `pos ≤ wordlen`, `is_prefix(word, wordlen, pos)` returns true
if and only if `word[i] = word[pos+i]` for every `i < wordlen - pos`; in particular it returns
true for `pos = wordlen`. -/
theorem is_prefix_true_iff (word : List Byte) (pre : Option Byte) (pos : Nat)
    (hpos : pos ≤ word.length) (hn : word.length ≤ INT_MAX) :
    ∃ r, is_prefix (bufMem word pre) word.length (pos : Int) = .ok r ∧
      (r = true ↔ ∀ i : Nat, i < word.length - pos → word[i]? = word[pos + i]?) ∧
      (pos = word.length → r = true) := by
  refine ⟨_, is_prefix_spec word pre pos hpos hn, ?_, ?_⟩
  · rw [decide_eq_true_iff]
    rfl
  · intro h
    rw [decide_eq_true_iff, h]
    exact isPrefixAt_length word

/-- Witness for C8 at the word "abab", `pos = 2`. -/
theorem is_prefix_true_iff_witness :
    (2 ≤ ([97, 98, 97, 98] : List Byte).length ∧
      ([97, 98, 97, 98] : List Byte).length ≤ INT_MAX) ∧
    is_prefix (bufMem [97, 98, 97, 98] none) ([97, 98, 97, 98] : List Byte).length
      ((2 : Nat) : Int) = .ok true := by
  refine ⟨⟨by decide, by decide⟩, ?_⟩
  obtain ⟨r, hr, hiff, _⟩ := is_prefix_true_iff [97, 98, 97, 98] none 2 (by decide) (by decide)
  rw [hr, hiff.2 ?_]
  intro i hi
  have hi' : i < 2 := hi
  interval_cases i <;> decide

/-- C9: for every word and every `pos < wordlen` (the byte in front of the word being readable,
with any value `b`), `suffix_length(word, wordlen, pos)` returns the largest `k ≤ pos + 1` such
that `word[pos-t] = word[wordlen-1-t]` for every `t < k`. -/
theorem suffix_length_longest (word : List Byte) (b : Byte) (pos : Nat)
    (hpos : pos < word.length) (hn : word.length ≤ PTRDIFF_MAX) :
    ∃ k, suffix_length (bufMem word (some b)) word.length (pos : Int) = .ok k ∧
      k ≤ pos + 1 ∧
      (∀ t : Nat, t < k → word[pos - t]? = word[word.length - 1 - t]?) ∧
      ∀ k0 : Nat, k0 ≤ pos + 1 →
        (∀ t : Nat, t < k0 → word[pos - t]? = word[word.length - 1 - t]?) → k0 ≤ k := by
  obtain ⟨k, h1, h2, h3, h4⟩ := suffix_length_spec word b pos hpos
    (ptrdiff_max_lt_size_mod _ hn)
  exact ⟨k, h1, h2, h3, fun k0 hk0 hm => suffixMatch_le_of_mismatch word pos k k0 h4 h2 hk0 hm⟩

/-- Witness for C9 at the header's example `suffix_length("dddbcabc", 8, 4) = 2`. -/
theorem suffix_length_longest_witness :
    (4 < ([100, 100, 100, 98, 99, 97, 98, 99] : List Byte).length ∧
      ([100, 100, 100, 98, 99, 97, 98, 99] : List Byte).length ≤ PTRDIFF_MAX) ∧
    suffix_length (bufMem [100, 100, 100, 98, 99, 97, 98, 99] (some 0))
      ([100, 100, 100, 98, 99, 97, 98, 99] : List Byte).length ((4 : Nat) : Int) = .ok 2 := by
  refine ⟨⟨by decide, by decide⟩, ?_⟩
  obtain ⟨k, hk, hle, hm, hmax⟩ := suffix_length_longest [100, 100, 100, 98, 99, 97, 98, 99] 0 4
    (by decide) (by decide)
  have h2 : 2 ≤ k := hmax 2 (by decide) (by
    intro t ht
    interval_cases t <;> decide)
  have h3 : k ≤ 2 := by
    by_contra hgt
    exact absurd (hm 2 (by omega)) (by decide)
  have : k = 2 := by omega
  rw [hk, this]

/-- C10: for every pattern of length `n ≥ 1` (the byte in front of the pattern being readable,
with any value `b`) and every index `j < n`, the table built by `make_delta2` satisfies
`delta2[j] = (n-1-j) + s`, where `s` is the least shift `s ≥ 1` compatible with the strong
good-suffix rule at `j`. -/
theorem make_delta2_least_good_shift (pat : List Byte) (b : Byte) (d : List Int)
    (hd : d.length = pat.length) (h1 : 0 < pat.length) (hn : pat.length ≤ INT_MAX) :
    ∃ d2, make_delta2 d (bufMem pat (some b)) pat.length = .ok d2 ∧ d2.length = pat.length ∧
      ∀ j : Nat, j < pat.length →
        ∃ s : Nat, d2[j]? = some (((pat.length : Int) - 1 - (j : Int)) + (s : Int)) ∧
          GoodShift pat j s ∧ ∀ s0 : Nat, GoodShift pat j s0 → s ≤ s0 := by
  obtain ⟨d2, h, hl, ht⟩ := make_delta2_spec pat b d hd h1 hn
  exact ⟨d2, h, hl, ht⟩

/-- Witness for C10 at the header's pattern "ABYXCDBYX". -/
theorem make_delta2_least_good_shift_witness :
    ((List.replicate 9 (0 : Int)).length = ([65, 66, 89, 88, 67, 68, 66, 89, 88] : List Byte).length ∧
      0 < ([65, 66, 89, 88, 67, 68, 66, 89, 88] : List Byte).length ∧
      ([65, 66, 89, 88, 67, 68, 66, 89, 88] : List Byte).length ≤ INT_MAX) ∧
    ∃ d2, make_delta2 (List.replicate 9 0) (bufMem [65, 66, 89, 88, 67, 68, 66, 89, 88] (some 0))
        ([65, 66, 89, 88, 67, 68, 66, 89, 88] : List Byte).length = .ok d2 ∧
      d2.length = ([65, 66, 89, 88, 67, 68, 66, 89, 88] : List Byte).length ∧
      ∀ j : Nat, j < ([65, 66, 89, 88, 67, 68, 66, 89, 88] : List Byte).length →
        ∃ s : Nat, d2[j]? = some (((([65, 66, 89, 88, 67, 68, 66, 89, 88] : List Byte).length
            : Int) - 1 - (j : Int)) + (s : Int)) ∧
          GoodShift [65, 66, 89, 88, 67, 68, 66, 89, 88] j s ∧
          ∀ s0 : Nat, GoodShift [65, 66, 89, 88, 67, 68, 66, 89, 88] j s0 → s ≤ s0 :=
  ⟨⟨by decide, by decide, by decide⟩,
    make_delta2_least_good_shift [65, 66, 89, 88, 67, 68, 66, 89, 88] 0 (List.replicate 9 0)
      (by decide) (by decide) (by decide)⟩

/-! Lemmas on the passes of the two loops of `make_delta2` and of the scan. -/

/-- One pass of the second loop of `make_delta2` is its body followed by the rest of the
loop. -/
theorem make_delta2_second_step (pat : Mem) (patlen fuel : Nat) (p : Int) (d : List Int) :
    make_delta2_second pat patlen (fuel + 1) p d =
      if toSize p < toSize ((patlen : Int) - 1) then
        match make_delta2_body pat patlen p d with
        | .ok d1 => make_delta2_second pat patlen fuel (p + 1) d1
        | .fault => .fault
        | .timeout => .timeout
      else .ok d := by
  rw [make_delta2_second]
  unfold make_delta2_body
  split
  · cases suffix_length pat patlen p with
    | fault => rfl
    | timeout => rfl
    | ok slen =>
      simp only
      cases pat (p - (slen : Int)) with
      | none => rfl
      | some a =>
        cases pat ((patlen : Int) - 1 - (slen : Int)) with
        | none => rfl
        | some c =>
          simp only
          split
          · cases store d ((patlen : Int) - 1 - (slen : Int))
              ((patlen : Int) - 1 - p + (slen : Int)) with
            | none => rfl
            | some d1 => rfl
          · rfl
  · rfl

/-- What the body of the second loop does at an index `P ≤ n-2`: it measures the suffix length
`k`, and writes `n-1-P+k` at index `n-1-k` when `k ≤ P` or the byte in front of the pattern
differs from `pat[n-2-P]`, and leaves the table alone otherwise. -/
theorem make_delta2_body_spec (pat : List Byte) (b : Byte) (P : Nat) (d : List Int)
    (hP : P + 1 < pat.length) (hn : pat.length < SIZE_MOD) (hd : d.length = pat.length) :
    ∃ k, suffix_length (bufMem pat (some b)) pat.length (P : Int) = .ok k ∧ k ≤ P + 1 ∧
      SuffixMatch pat P k ∧ (k ≤ P → pat[P - k]? ≠ pat[pat.length - 1 - k]?) ∧
      ((k ≤ P ∧ make_delta2_body (bufMem pat (some b)) pat.length (P : Int) d
          = .ok (d.set (pat.length - 1 - k) ((pat.length : Int) - 1 - (P : Int) + (k : Int)))) ∨
        (k = P + 1 ∧ (make_delta2_body (bufMem pat (some b)) pat.length (P : Int) d
          = .ok (d.set (pat.length - 1 - k) ((pat.length : Int) - 1 - (P : Int) + (k : Int))) ∨
          make_delta2_body (bufMem pat (some b)) pat.length (P : Int) d = .ok d))) := by
  obtain ⟨k, hk0, hk1, hk2, hk3⟩ := suffix_length_spec pat b P (by omega) hn
  refine ⟨k, hk0, hk1, hk2, hk3, ?_⟩
  unfold make_delta2_body
  rw [hk0]
  simp only
  have e2 : (pat.length : Int) - 1 - (k : Int) = ((pat.length - 1 - k : Nat) : Int) := by omega
  rw [e2, bufMem_ofNat, List.getElem?_eq_getElem (by omega : pat.length - 1 - k < pat.length)]
  by_cases hkP : k ≤ P
  · left
    refine ⟨hkP, ?_⟩
    have e1 : (P : Int) - (k : Int) = ((P - k : Nat) : Int) := by omega
    rw [e1, bufMem_ofNat, List.getElem?_eq_getElem (by omega : P - k < pat.length)]
    simp only
    have ea := List.getElem?_eq_getElem (l := pat) (by omega : P - k < pat.length)
    have eb := List.getElem?_eq_getElem (l := pat)
      (by omega : pat.length - 1 - k < pat.length)
    have hne : pat[P - k] ≠ pat[pat.length - 1 - k] :=
      fun h => hk3 hkP (ea.trans ((congrArg some h).trans eb.symm))
    rw [if_pos hne, store_ofNat d _ _ (by rw [hd]; omega)]
  · right
    refine ⟨by omega, ?_⟩
    have e1 : (P : Int) - (k : Int) = -1 := by omega
    rw [e1, bufMem_neg_one]
    simp only
    by_cases hg : b ≠ pat[pat.length - 1 - k]
    · left
      rw [if_pos hg, store_ofNat d _ _ (by rw [hd]; omega)]
    · right
      rw [if_neg hg]

/-- Every table with which the second loop is entered satisfies the loop invariant. -/
theorem secondReached_inv (pat : List Byte) (b : Byte) (d0 : List Int) (h1 : 0 < pat.length)
    (hn : pat.length < SIZE_MOD) (h0 : SecondLoopInv pat 0 d0) (p : Int) (d : List Int)
    (hr : SecondReached (bufMem pat (some b)) pat.length d0 p d) :
    ∃ P : Nat, p = (P : Int) ∧ P ≤ pat.length - 1 ∧ SecondLoopInv pat P d := by
  induction hr with
  | start => exact ⟨0, rfl, by omega, h0⟩
  | step p d d1 _ hlt hbody ih =>
    obtain ⟨P, rfl, hP, hinv⟩ := ih
    rw [toSize_ofNat P (by omega), toSize_pred pat.length h1 hn] at hlt
    obtain ⟨k, _, hk1, hk2, hk3, hcase⟩ := make_delta2_body_spec pat b P d (by omega) hn hinv.1
    refine ⟨P + 1, by push_cast; rfl, by omega, ?_⟩
    rcases hcase with ⟨_, hw⟩ | ⟨hk, hw | hs⟩
    · rw [hw] at hbody
      rw [← Res.ok.inj hbody]
      exact secondLoopInv_write pat P k d (by omega) hk1 hk2 hk3 hinv
    · rw [hw] at hbody
      rw [← Res.ok.inj hbody]
      exact secondLoopInv_write pat P k d (by omega) hk1 hk2 hk3 hinv
    · rw [hs] at hbody
      rw [← Res.ok.inj hbody]
      exact secondLoopInv_skip pat P k d (by omega) hk hk2 hinv

/-- The value the second loop would write at index `n-1-k` is at most the entry held there,
and smaller when `k ≤ P`. -/
theorem secondLoopInv_candidate_le (pat : List Byte) (P k : Nat) (d : List Int)
    (hP : P + 1 < pat.length) (hk1 : k ≤ P + 1) (hinv : SecondLoopInv pat P d) :
    ∃ old : Int, d[pat.length - 1 - k]? = some old ∧
      (pat.length : Int) - 1 - (P : Int) + (k : Int) ≤ old ∧
      (k ≤ P → (pat.length : Int) - 1 - (P : Int) + (k : Int) < old) := by
  obtain ⟨s, hs1, ⟨hs2, hs3⟩, _⟩ := hinv.2 (pat.length - 1 - k) (by omega)
  refine ⟨_, hs1, ?_, fun hkP => ?_⟩
  · rcases hs3 with ⟨h, _⟩ | ⟨_, h⟩ <;> omega
  · rcases hs3 with ⟨h, _⟩ | ⟨_, h⟩ <;> omega

/-- The second loop, run from a table it was entered with, ends with a table it is entered
with at index `n-1`. -/
theorem make_delta2_second_reached (pat : List Byte) (b : Byte) (d0 : List Int)
    (h1 : 0 < pat.length) (hn : pat.length < SIZE_MOD) :
    ∀ (fuel P : Nat) (d : List Int), P ≤ pat.length - 1 → pat.length - 1 - P < fuel →
      SecondLoopInv pat P d →
      SecondReached (bufMem pat (some b)) pat.length d0 (P : Int) d →
      ∃ d2, make_delta2_second (bufMem pat (some b)) pat.length fuel (P : Int) d = .ok d2 ∧
        SecondReached (bufMem pat (some b)) pat.length d0 ((pat.length : Int) - 1) d2 := by
  intro fuel
  induction fuel with
  | zero => intro P _ _ h; omega
  | succ fuel ih =>
    intro P d hP hf hinv hr
    rw [make_delta2_second_step, toSize_ofNat P (by omega), toSize_pred pat.length h1 hn]
    by_cases hlt : P < pat.length - 1
    · rw [if_pos hlt]
      have hlt' : toSize (P : Int) < toSize ((pat.length : Int) - 1) := by
        rw [toSize_ofNat P (by omega), toSize_pred pat.length h1 hn]; exact hlt
      have hP1 : ((P : Int) + 1) = ((P + 1 : Nat) : Int) := by push_cast; rfl
      obtain ⟨k, _, hk1, hk2, hk3, hcase⟩ :=
        make_delta2_body_spec pat b P d (by omega) hn hinv.1
      rcases hcase with ⟨_, hw⟩ | ⟨hk, hw | hs⟩
      · have hr' := SecondReached.step (P : Int) d _ hr hlt' hw
        rw [hw]
        simp only
        rw [hP1] at hr' ⊢
        exact ih (P + 1) _ (by omega) (by omega)
          (secondLoopInv_write pat P k d (by omega) hk1 hk2 hk3 hinv) hr'
      · have hr' := SecondReached.step (P : Int) d _ hr hlt' hw
        rw [hw]
        simp only
        rw [hP1] at hr' ⊢
        exact ih (P + 1) _ (by omega) (by omega)
          (secondLoopInv_write pat P k d (by omega) hk1 hk2 hk3 hinv) hr'
      · have hr' := SecondReached.step (P : Int) d _ hr hlt' hs
        rw [hs]
        simp only
        rw [hP1] at hr' ⊢
        exact ih (P + 1) _ (by omega) (by omega)
          (secondLoopInv_skip pat P k d (by omega) hk hk2 hinv) hr'
    · rw [if_neg hlt]
      have hPn : (P : Int) = (pat.length : Int) - 1 := by omega
      rw [← hPn]
      exact ⟨d, rfl, hr⟩

/-- The run of `make_delta2` split into its two loops. -/
theorem make_delta2_two_loops (pat : List Byte) (b : Byte) (d : List Int)
    (hd : d.length = pat.length) (h1 : 0 < pat.length) (hn : pat.length ≤ INT_MAX) :
    ∃ d0 d2, make_delta2_first (bufMem pat (some b)) pat.length (pat.length + 1)
        ((pat.length : Int) - 1) 1 d = .ok d0 ∧
      make_delta2 d (bufMem pat (some b)) pat.length = .ok d2 ∧
      FirstLoopDone pat 0 d0 ∧ Delta2Table pat d2 ∧
      SecondReached (bufMem pat (some b)) pat.length d0 ((pat.length : Int) - 1) d2 := by
  have hn' := int_max_lt_size_mod _ hn
  obtain ⟨d0, h0, hF⟩ := make_delta2_first_spec pat (some b) hn (pat.length + 1) pat.length 1 d
    (by omega) (by omega) (by omega) ⟨hd, fun q h1 h2 => by omega⟩
  obtain ⟨d2, hd2, hT⟩ := make_delta2_spec pat b d hd h1 hn
  obtain ⟨d2', hd2', hR⟩ := make_delta2_second_reached pat b d0 h1 hn' (pat.length - 1 + 1) 0 d0
    (by omega) (by omega) (secondLoopInv_init pat d0 hF) SecondReached.start
  have heq : d2 = d2' := by
    have h := hd2
    unfold make_delta2 at h
    rw [h0] at h
    simp only at h
    rw [toSize_pred pat.length h1 hn'] at h
    simp only [Nat.cast_zero] at hd2'
    rw [hd2'] at h
    exact (Res.ok.inj h).symm
  subst heq
  exact ⟨d0, d2, h0, hd2, hF, hT, hR⟩

theorem tables_built (pat : List Byte) (b : Byte) (h1 : 0 < pat.length)
    (hn : pat.length ≤ INT_MAX) :
    ∃ d1 d2, make_delta1 (List.replicate ALPHABET_LEN 0) (bufMem pat (some b)) pat.length
        = .ok d1 ∧
      make_delta2 (List.replicate pat.length 0) (bufMem pat (some b)) pat.length = .ok d2 ∧
      Delta1Inv pat pat.length d1 ∧ Delta2Table pat d2 := by
  obtain ⟨d1, hd1, hD1⟩ := make_delta1_spec pat (some b) (List.replicate ALPHABET_LEN 0)
    (List.length_replicate _ _) (int_max_lt_size_mod _ hn)
  obtain ⟨d2, hd2, hD2⟩ := make_delta2_spec pat b (List.replicate pat.length 0)
    (List.length_replicate _ _) h1 hn
  exact ⟨d1, d2, hd1, hd2, hD1, hD2⟩

theorem lengths_lt_size_mod (string pat : List Byte) (hn : pat.length ≤ INT_MAX)
    (hs : string.length ≤ PTRDIFF_MAX) : string.length + pat.length < SIZE_MOD := by
  unfold INT_MAX at hn; unfold PTRDIFF_MAX at hs; unfold SIZE_MOD; omega

theorem reached_fits (string pat : List Byte) (spre pre : Option Byte)
    (d1 d2 : List Int) (hD1 : Delta1Inv pat pat.length d1) (hD2 : Delta2Table pat d2)
    (hb : string.length + pat.length < SIZE_MOD) (h1 : 0 < pat.length) (i : Int)
    (hr : Reached (bufMem string spre) string.length (bufMem pat pre) pat.length d1 d2 i)
    (hlt : toSize i < string.length) :
    ∃ a : Nat, i = (a : Int) + (pat.length : Int) - 1 ∧ a + pat.length ≤ string.length := by
  obtain ⟨a, rfl, ha⟩ := reached_alignment string pat spre pre d1 d2 hD1 hD2 hb h1 i hr
  have e0 : (a : Int) + (pat.length : Int) - 1 = ((a + pat.length - 1 : Nat) : Int) := by omega
  rw [e0, toSize_ofNat _ (by omega)] at hlt
  exact ⟨a, rfl, by omega⟩

/-- The specification of the `delta2` table determines the table. -/
theorem delta2Table_unique (pat : List Byte) (d2 d3 : List Int) (h2 : Delta2Table pat d2)
    (h3 : Delta2Table pat d3) : d2 = d3 := by
  apply List.ext_getElem?
  intro j
  by_cases hj : j < pat.length
  · obtain ⟨s, hs1, hs2, hs3⟩ := h2.2 j hj
    obtain ⟨t, ht1, ht2, ht3⟩ := h3.2 j hj
    have h1 := hs3 t ht2
    have h2 := ht3 s hs2
    have : s = t := by omega
    subst this
    rw [hs1, ht1]
  · rw [List.getElem?_eq_none (by rw [h2.1]; omega), List.getElem?_eq_none (by rw [h3.1]; omega)]

/-- The first loop of `make_delta2`, run as `make_delta2` runs it. -/
theorem make_delta2_first_run (pat : List Byte) (pre : Option Byte) (d : List Int)
    (hd : d.length = pat.length) (hn : pat.length ≤ INT_MAX) :
    ∃ d0, make_delta2_first (bufMem pat pre) pat.length (pat.length + 1)
        ((pat.length : Int) - 1) 1 d = .ok d0 ∧ FirstLoopDone pat 0 d0 :=
  make_delta2_first_spec pat pre hn (pat.length + 1) pat.length 1 d (by omega) (by omega)
    (by omega) ⟨hd, fun q h1 h2 => by omega⟩

/-- The first table is built for the empty pattern, whatever the memory. -/
theorem make_delta1_empty (pat : Mem) (d : List Int) (hd : d.length = ALPHABET_LEN) :
    ∃ d1, make_delta1 d pat 0 = .ok d1 := by
  obtain ⟨d1, h1, _, _⟩ := make_delta1_fill_spec 0 (ALPHABET_LEN + 1) 0 d hd (by omega)
    (by omega)
  simp only [Nat.cast_zero] at h1
  refine ⟨d1, ?_⟩
  unfold make_delta1
  rw [h1]
  rfl

/-! Claims on the behaviour of the loops. -/

/-- C11: taking the larger shift never skips a match. For every text and non-empty pattern
of length `n`, every alignment `a` with `a + n ≤ stringlen` and every `j < n` with
`string[a+k] = pat[k]` for `j < k < n` and `string[a+j] ≠ pat[j]`: with
`s = max(delta1[string[a+j]], delta2[j]) - (n-1-j)`, the pattern occurs at no offset `a0` with
`a < a0 < a + s`. -/
theorem boyer_moore_shift_skips_no_match (string pat : List Byte) (b : Byte)
    (h1 : 0 < pat.length) (hn : pat.length ≤ INT_MAX) :
    ∃ d1 d2, make_delta1 (List.replicate ALPHABET_LEN 0) (bufMem pat (some b)) pat.length
        = .ok d1 ∧
      make_delta2 (List.replicate pat.length 0) (bufMem pat (some b)) pat.length = .ok d2 ∧
      ∀ (a j : Nat) (c : Byte), a + pat.length ≤ string.length → j < pat.length →
        (∀ k : Nat, j < k → k < pat.length → string[a + k]? = pat[k]?) →
        string[a + j]? = some c → string[a + j]? ≠ pat[j]? →
        ∃ v1 v2 : Int, d1[c.val]? = some v1 ∧ d2[j]? = some v2 ∧
          ∀ a0 : Nat, a < a0 →
            (a0 : Int) < (a : Int) + (BoyerMoore.max v1 v2 - ((pat.length : Int) - 1 - (j : Int))) →
            ¬ Occurs string pat a0 := by
  obtain ⟨d1, d2, hd1, hd2, hD1, hD2⟩ := tables_built pat b h1 hn
  refine ⟨d1, d2, hd1, hd2, fun a j c _ hj hm hc hne => ?_⟩
  obtain ⟨v1, hv1, _, _, _⟩ := delta1_bound pat d1 hD1 c
  obtain ⟨s2, hv2, _, hleast⟩ := hD2.2 j hj
  refine ⟨v1, _, hv1, hv2, fun a0 ha0 hlt => ?_⟩
  obtain ⟨t, rfl⟩ : ∃ t, a0 = a + t := ⟨a0 - a, by omega⟩
  obtain ⟨_, _, hm3⟩ := max_spec v1 ((pat.length : Int) - 1 - (j : Int) + (s2 : Int))
  rcases hm3 with hmax | hmax
  · rw [hmax] at hlt
    exact badChar_no_occurrence string pat d1 hD1 a j t c v1 hj hc hv1 (by omega) (by omega)
  · rw [hmax] at hlt
    intro hocc
    have := hleast t (goodShift_of_occurs string pat a j t hj (by omega) hne hm hocc)
    omega

/-- Witness for C11 at text "abcab", pattern "cab". -/
theorem boyer_moore_shift_skips_no_match_witness :
    (0 < ([99, 97, 98] : List Byte).length ∧ ([99, 97, 98] : List Byte).length ≤ INT_MAX) ∧
    ∃ d1 d2, make_delta1 (List.replicate ALPHABET_LEN 0) (bufMem [99, 97, 98] (some 0))
        ([99, 97, 98] : List Byte).length = .ok d1 ∧
      make_delta2 (List.replicate ([99, 97, 98] : List Byte).length 0)
        (bufMem [99, 97, 98] (some 0)) ([99, 97, 98] : List Byte).length = .ok d2 ∧
      ∃ v1 v2 : Int, d1[99]? = some v1 ∧ d2[2]? = some v2 ∧
        ∀ a0 : Nat, 0 < a0 →
          (a0 : Int) < ((0 : Nat) : Int) + (BoyerMoore.max v1 v2
            - ((([99, 97, 98] : List Byte).length : Int) - 1 - ((2 : Nat) : Int))) →
          ¬ Occurs [97, 98, 99, 97, 98] [99, 97, 98] a0 := by
  refine ⟨⟨by decide, by decide⟩, ?_⟩
  obtain ⟨d1, d2, hd1, hd2, hall⟩ := boyer_moore_shift_skips_no_match [97, 98, 99, 97, 98]
    [99, 97, 98] 0 (by decide) (by decide)
  refine ⟨d1, d2, hd1, hd2, ?_⟩
  exact hall 0 2 99 (by decide) (by decide) (fun k hk1 hk2 => by
    have : k < 3 := hk2
    omega) (by decide) (by decide)

/-- C12: for every pattern of length `n ≥ 1`, after the first loop of `make_delta2` every
index `p < n` holds `delta2[p] = q + (n-1-p)`, where `q` is the smallest index with
`p < q ≤ n` for which `is_prefix(pat, n, q)` is true. -/
theorem make_delta2_first_loop_table (pat : List Byte) (pre : Option Byte) (d : List Int)
    (hd : d.length = pat.length) (hn : pat.length ≤ INT_MAX) :
    ∃ d0, make_delta2_first (bufMem pat pre) pat.length (pat.length + 1)
        ((pat.length : Int) - 1) 1 d = .ok d0 ∧ d0.length = pat.length ∧
      ∀ p : Nat, p < pat.length →
        ∃ q : Nat, p < q ∧ q ≤ pat.length ∧
          is_prefix (bufMem pat pre) pat.length (q : Int) = .ok true ∧
          (∀ q0 : Nat, p < q0 → q0 < q →
            is_prefix (bufMem pat pre) pat.length (q0 : Int) = .ok false) ∧
          d0[p]? = some ((q : Int) + ((pat.length : Int) - 1 - (p : Int))) := by
  obtain ⟨d0, h0, hl, hall⟩ := make_delta2_first_run pat pre d hd hn
  refine ⟨d0, h0, hl, fun p hp => ?_⟩
  obtain ⟨q, ⟨hq1, hq2, hq3, hq4⟩, hv⟩ := hall p (by omega) hp
  refine ⟨q, hq1, hq2, ?_, fun q0 h01 h02 => ?_, hv⟩
  · rw [is_prefix_spec pat pre q hq2 hn, decide_eq_true hq3]
  · rw [is_prefix_spec pat pre q0 (by omega) hn]
    congr 1
    rw [decide_eq_false_iff_not]
    intro hpre
    have := hq4 q0 h01 hpre
    omega

/-- Witness for C12 at the pattern "ABYXCDBYX": the first loop gives `delta2[6] = 11`. -/
theorem make_delta2_first_loop_table_witness :
    ((List.replicate 9 (0 : Int)).length
        = ([65, 66, 89, 88, 67, 68, 66, 89, 88] : List Byte).length ∧
      ([65, 66, 89, 88, 67, 68, 66, 89, 88] : List Byte).length ≤ INT_MAX) ∧
    ∃ d0, make_delta2_first (bufMem [65, 66, 89, 88, 67, 68, 66, 89, 88] none)
        ([65, 66, 89, 88, 67, 68, 66, 89, 88] : List Byte).length
        (([65, 66, 89, 88, 67, 68, 66, 89, 88] : List Byte).length + 1)
        ((([65, 66, 89, 88, 67, 68, 66, 89, 88] : List Byte).length : Int) - 1) 1
        (List.replicate 9 0) = .ok d0 ∧
      d0[6]? = some 11 := by
  refine ⟨⟨by decide, by decide⟩, ?_⟩
  obtain ⟨d0, h0, _, hall⟩ := make_delta2_first_loop_table
    [65, 66, 89, 88, 67, 68, 66, 89, 88] none (List.replicate 9 0)
    (by decide) (by decide)
  refine ⟨d0, h0, ?_⟩
  obtain ⟨q, hq1, hq2, hq3, _, hv⟩ := hall 6 (by decide)
  have hq2' : q ≤ 9 := hq2
  have hq : q = 9 := by
    by_contra hne
    have hcases : q = 7 ∨ q = 8 := by omega
    rcases hcases with h | h <;> subst h <;> exact absurd hq3 (by decide)
  subst hq
  rw [hv]
  rfl

/-- C13: for every pattern of length `n ≥ 1`, at every pass of the second loop of
`make_delta2` the value `n-1-p+slen` that the pass may store at index `n-1-slen` is at most the
value held there before, and strictly less whenever `p - slen ≥ 0`; and each final `delta2[q]`
is the minimum of its first-loop value and the second-loop candidates `n-1-p+slen` with
`n-1-slen = q`. -/
theorem make_delta2_second_loop_decreases (pat : List Byte) (b : Byte) (d : List Int)
    (hd : d.length = pat.length) (h1 : 0 < pat.length) (hn : pat.length ≤ INT_MAX) :
    ∃ d0 d2, make_delta2_first (bufMem pat (some b)) pat.length (pat.length + 1)
        ((pat.length : Int) - 1) 1 d = .ok d0 ∧
      make_delta2 d (bufMem pat (some b)) pat.length = .ok d2 ∧
      SecondReached (bufMem pat (some b)) pat.length d0 ((pat.length : Int) - 1) d2 ∧
      (∀ (p : Int) (dp : List Int),
        SecondReached (bufMem pat (some b)) pat.length d0 p dp →
        toSize p < toSize ((pat.length : Int) - 1) →
        ∃ (slen : Nat) (old : Int),
          suffix_length (bufMem pat (some b)) pat.length p = .ok slen ∧
          load dp ((pat.length : Int) - 1 - (slen : Int)) = some old ∧
          (pat.length : Int) - 1 - p + (slen : Int) ≤ old ∧
          (0 ≤ p - (slen : Int) → (pat.length : Int) - 1 - p + (slen : Int) < old) ∧
          (make_delta2_body (bufMem pat (some b)) pat.length p dp = .ok dp ∨
            store dp ((pat.length : Int) - 1 - (slen : Int))
                ((pat.length : Int) - 1 - p + (slen : Int))
              = some (dp.set (pat.length - 1 - slen)
                  ((pat.length : Int) - 1 - p + (slen : Int))) ∧
            make_delta2_body (bufMem pat (some b)) pat.length p dp
              = .ok (dp.set (pat.length - 1 - slen)
                  ((pat.length : Int) - 1 - p + (slen : Int))))) ∧
      ∀ q : Nat, q < pat.length →
        ∃ v0 v2 : Int, d0[q]? = some v0 ∧ d2[q]? = some v2 ∧ v2 ≤ v0 ∧
          (∀ (p slen : Nat), p + 1 < pat.length →
            suffix_length (bufMem pat (some b)) pat.length (p : Int) = .ok slen →
            pat.length - 1 - slen = q →
            v2 ≤ (pat.length : Int) - 1 - (p : Int) + (slen : Int)) ∧
          (v2 = v0 ∨ ∃ (p slen : Nat), p + 1 < pat.length ∧
            suffix_length (bufMem pat (some b)) pat.length (p : Int) = .ok slen ∧
            pat.length - 1 - slen = q ∧
            v2 = (pat.length : Int) - 1 - (p : Int) + (slen : Int)) := by
  have hn' := int_max_lt_size_mod _ hn
  obtain ⟨d0, d2, h0, h2, hF, hT, hR⟩ := make_delta2_two_loops pat b d hd h1 hn
  refine ⟨d0, d2, h0, h2, hR, fun p dp hreach hlt => ?_, fun q hq => ?_⟩
  · obtain ⟨P, rfl, hP, hinv⟩ := secondReached_inv pat b d0 h1 hn'
      (secondLoopInv_init pat d0 hF) p dp hreach
    rw [toSize_ofNat P (by omega), toSize_pred pat.length h1 hn'] at hlt
    obtain ⟨k, hk0, hk1, _, _, hcase⟩ :=
      make_delta2_body_spec pat b P dp (by omega) hn' hinv.1
    obtain ⟨old, ho1, ho2, ho3⟩ := secondLoopInv_candidate_le pat P k dp (by omega) hk1 hinv
    have e2 : (pat.length : Int) - 1 - (k : Int) = ((pat.length - 1 - k : Nat) : Int) := by
      omega
    have hst := store_ofNat dp (pat.length - 1 - k)
      ((pat.length : Int) - 1 - (P : Int) + (k : Int)) (by rw [hinv.1]; omega)
    refine ⟨k, old, hk0, ?_, ho2, fun h => ho3 (by omega), ?_⟩
    · rw [e2, load_ofNat, ho1]
    · rw [e2]
      rcases hcase with ⟨_, hw⟩ | ⟨_, hw | hs⟩
      · exact Or.inr ⟨hst, hw⟩
      · exact Or.inr ⟨hst, hw⟩
      · exact Or.inl hs
  · obtain ⟨L, ⟨hL1, hL2, hL3, hL4⟩, hv0⟩ := hF.2 q (by omega) hq
    obtain ⟨s, hv2, hg, hleast⟩ := hT.2 q hq
    have hgL : GoodShift pat q L := ⟨by omega, Or.inr ((shiftPrefix_iff pat q L).2 ⟨hL1, hL3⟩)⟩
    refine ⟨_, _, hv0, hv2, ?_, fun p slen hp hsl hidx => ?_, ?_⟩
    · have := hleast L hgL
      omega
    · obtain ⟨k, hk0, hk1, hk2, hk3⟩ := suffix_length_spec pat b p (by omega) hn'
      rw [hk0] at hsl
      have hks : k = slen := Res.ok.inj hsl
      subst hks
      have hgs : GoodShift pat q (pat.length - 1 - p) := by
        refine ⟨by omega, ?_⟩
        by_cases hkp : k ≤ p
        · left
          rw [← hidx]
          exact shiftRecurs_of_suffix pat p k hp hkp hk2 (hk3 hkp)
        · right
          have hk : k = p + 1 := by omega
          subst hk
          rw [← hidx]
          exact shiftPrefix_of_suffix pat p hp hk2
      have := hleast _ hgs
      omega
    · obtain ⟨hg1, hrec | hpre⟩ := hg
      · right
        have hsq := hrec.1
        have hp : pat.length - 1 - s + 1 < pat.length := by omega
        obtain ⟨k, hk0, hk1, hk2, hk3⟩ := suffix_length_spec pat b (pat.length - 1 - s)
          (by omega) hn'
        have hrec' : ShiftRecurs pat q (pat.length - 1 - (pat.length - 1 - s)) := by
          rw [show pat.length - 1 - (pat.length - 1 - s) = s from by omega]
          exact hrec
        obtain ⟨hkp, hqk⟩ := shiftRecurs_index pat (pat.length - 1 - s) q k hp hq hk1 hk2 hk3
          hrec'
        exact ⟨pat.length - 1 - s, k, hp, hk0, hqk.symm, by omega⟩
      · left
        obtain ⟨hp1, hp2⟩ := (shiftPrefix_iff pat q s).1 hpre
        have h1 := hL4 s hp1 hp2
        have h2 := hleast L hgL
        have : s = L := by omega
        subst this
        omega

/-- Witness for C13 at the pattern "abab". -/
theorem make_delta2_second_loop_decreases_witness :
    ((List.replicate 4 (0 : Int)).length = ([97, 98, 97, 98] : List Byte).length ∧
      0 < ([97, 98, 97, 98] : List Byte).length ∧
      ([97, 98, 97, 98] : List Byte).length ≤ INT_MAX) ∧
    ∃ d0 d2, make_delta2_first (bufMem [97, 98, 97, 98] (some 0))
        ([97, 98, 97, 98] : List Byte).length (([97, 98, 97, 98] : List Byte).length + 1)
        ((([97, 98, 97, 98] : List Byte).length : Int) - 1) 1 (List.replicate 4 0) = .ok d0 ∧
      make_delta2 (List.replicate 4 0) (bufMem [97, 98, 97, 98] (some 0))
        ([97, 98, 97, 98] : List Byte).length = .ok d2 ∧
      ∃ v0 v2 : Int, d0[1]? = some v0 ∧ d2[1]? = some v2 ∧ v2 ≤ v0 := by
  refine ⟨⟨by decide, by decide, by decide⟩, ?_⟩
  obtain ⟨d0, d2, h0, h2, _, _, hmin⟩ := make_delta2_second_loop_decreases [97, 98, 97, 98] 0
    (List.replicate 4 0) (by decide) (by decide) (by decide)
  obtain ⟨v0, v2, hv0, hv2, hle, _⟩ := hmin 1 (by decide)
  exact ⟨d0, d2, h0, h2, v0, v2, hv0, hv2, hle⟩

/-- C14, at the failing input: for the pattern "aa", with every access outside the pattern
treated as an error, `suffix_length(pat, 2, 0)` reads `pat[-1]` and `make_delta2` stops with
that out-of-range access. -/
theorem make_delta2_reads_before_pattern :
    suffix_length (bufMem [97, 97] none) 2 0 = .fault ∧
      make_delta2 (List.replicate 2 0) (bufMem [97, 97] none) 2 = .fault := by
  constructor <;> decide

/-- C15, at the failing input: called with `patlen = 0`, `boyer_moore` evaluates
`make_delta2(delta2, pat, 0)` before the `patlen == 0` test, and its result is decided by that
call, which reads the pattern: on a zero-length pattern it stops with an out-of-range
access. -/
theorem boyer_moore_empty_pattern_runs_make_delta2 (fuel : Nat) (string : Mem)
    (stringlen : Nat) (pat : Mem) (pre : Option Byte) :
    boyer_moore fuel string stringlen pat 0 =
      (match make_delta2 (List.replicate 0 0) pat 0 with
        | .ok _ => .ok (some 0)
        | .fault => .fault
        | .timeout => .timeout) ∧
    make_delta2 (List.replicate 0 0) (bufMem [] pre) 0 = .fault := by
  constructor
  · obtain ⟨d1, hd1⟩ := make_delta1_empty pat (List.replicate ALPHABET_LEN 0)
      (List.length_replicate _ _)
    unfold boyer_moore
    rw [hd1]
    simp only
    cases make_delta2 (List.replicate 0 0) pat 0 with
    | ok d2 => simp
    | fault => rfl
    | timeout => rfl
  · exact make_delta2_empty_fault pre _

/-- C16: for every text and every non-empty pattern the scan loop of `boyer_moore` terminates
(with more than `stringlen` units of fuel it returns), and after each mismatch at pattern index
`j` the shift is strictly greater than the number `patlen-1-j` of characters already matched,
so the cursor at the head of the next pass is strictly greater than at the head of this one. -/
theorem boyer_moore_scan_terminates (string pat : List Byte) (b : Byte)
    (h1 : 0 < pat.length) (hn : pat.length ≤ INT_MAX) (hs : string.length ≤ PTRDIFF_MAX) :
    ∃ d1 d2, make_delta1 (List.replicate ALPHABET_LEN 0) (bufMem pat (some b)) pat.length
        = .ok d1 ∧
      make_delta2 (List.replicate pat.length 0) (bufMem pat (some b)) pat.length = .ok d2 ∧
      (∀ fuel : Nat, string.length < fuel →
        ∃ r, boyer_moore_scan (bufMem string none) string.length (bufMem pat (some b))
          pat.length d1 d2 fuel ((pat.length : Int) - 1) = .ok r) ∧
      ∀ i : Int,
        Reached (bufMem string none) string.length (bufMem pat (some b)) pat.length d1 d2 i →
        toSize i < string.length →
        ∀ i1 j shift : Int,
          boyer_moore_iter (bufMem string none) (bufMem pat (some b)) pat.length d1 d2 i
            = .ok (.mismatch i1 j shift) →
          (pat.length : Int) - 1 - j < shift ∧ i < i1 + shift ∧
            (string.length : Int) - (i1 + shift) < (string.length : Int) - i := by
  obtain ⟨d1, d2, hd1, hd2, hD1, hD2⟩ := tables_built pat b h1 hn
  have hb := lengths_lt_size_mod string pat hn hs
  refine ⟨d1, d2, hd1, hd2, fun fuel hf => ?_, fun i hreach hlt i1 j shift hit => ?_⟩
  · obtain ⟨r, hr, _⟩ := boyer_moore_scan_spec string pat none (some b) d1 d2 hD1 hD2 h1 hb
      fuel 0 (by omega) (by omega) (fun a' h => by omega)
    simp only [Nat.cast_zero, zero_add] at hr
    exact ⟨r, hr⟩
  · obtain ⟨a, rfl, hfit⟩ := reached_fits string pat none (some b) d1 d2 hD1 hD2 hb h1 i
      hreach hlt
    obtain ⟨jn, c, v1, v2, s, rfl, hj, rfl, _, _, _, _, _, hs1, _, rfl⟩ :=
      boyer_moore_iter_mismatch string pat none (some b) d1 d2 hD1 hD2 a hfit i1 j shift hit
    refine ⟨by omega, by omega, by omega⟩

/-- Witness for C16 at text "ba", pattern "a". -/
theorem boyer_moore_scan_terminates_witness :
    (0 < ([97] : List Byte).length ∧ ([97] : List Byte).length ≤ INT_MAX ∧
      ([98, 97] : List Byte).length ≤ PTRDIFF_MAX) ∧
    ∃ d1 d2, make_delta1 (List.replicate ALPHABET_LEN 0) (bufMem [97] (some 0))
        ([97] : List Byte).length = .ok d1 ∧
      make_delta2 (List.replicate ([97] : List Byte).length 0) (bufMem [97] (some 0))
        ([97] : List Byte).length = .ok d2 ∧
      ∃ r, boyer_moore_scan (bufMem [98, 97] none) ([98, 97] : List Byte).length
        (bufMem [97] (some 0)) ([97] : List Byte).length d1 d2 3
        ((([97] : List Byte).length : Int) - 1) = .ok r := by
  refine ⟨⟨by decide, by decide, by decide⟩, ?_⟩
  obtain ⟨d1, d2, hd1, hd2, hterm, _⟩ := boyer_moore_scan_terminates [98, 97] [97] 0
    (by decide) (by decide) (by decide)
  exact ⟨d1, d2, hd1, hd2, hterm 3 (by decide)⟩

/-- C17 as stated fails: with text "b" and pattern "a" the first pass of the scan stops at a
mismatch with pattern cursor `j = patlen-1 = 0`, so `delta2[patlen-1]` is consulted. -/
theorem boyer_moore_consults_last_delta2_entry :
    ∃ (d1 d2 : List Int) (i1 shift : Int),
      make_delta1 (List.replicate ALPHABET_LEN 0) (bufMem [97] (some 0)) 1 = .ok d1 ∧
      make_delta2 (List.replicate 1 0) (bufMem [97] (some 0)) 1 = .ok d2 ∧
      Reached (bufMem [98] none) 1 (bufMem [97] (some 0)) 1 d1 d2 0 ∧
      toSize 0 < 1 ∧
      boyer_moore_iter (bufMem [98] none) (bufMem [97] (some 0)) 1 d1 d2 0
        = .ok (.mismatch i1 ((1 : Int) - 1) shift) := by
  obtain ⟨d1, d2, hd1, hd2, hD1, hD2⟩ := tables_built [97] 0 (by decide) (by decide)
  rcases boyer_moore_iter_spec [98] [97] none (some 0) d1 d2 hD1.1 hD2.1 0 (by decide) with
    ⟨hocc, _⟩ | ⟨jn, c, v1, v2, hj, _, _, _, _, _, hmis⟩
  · exact absurd (hocc.2 0 (by decide)) (by decide)
  · have hj0 : jn = 0 := by
      have : jn < 1 := hj
      omega
    subst hj0
    exact ⟨d1, d2, _, _, hd1, hd2, Reached.start, by decide, hmis⟩

/-- C17 amended: at every mismatch the scan consults `delta2[j]` for the pattern cursor `j`,
`0 ≤ j ≤ patlen-1`, and `j = patlen-1` (the entry at index `patlen-1` is consulted) exactly
when the first comparison of the pass fails, `string[i] ≠ pat[patlen-1]`. -/
theorem boyer_moore_last_delta2_entry_use (string pat : List Byte) (b : Byte)
    (h1 : 0 < pat.length) (hn : pat.length ≤ INT_MAX) (hs : string.length ≤ PTRDIFF_MAX) :
    ∃ d1 d2, make_delta1 (List.replicate ALPHABET_LEN 0) (bufMem pat (some b)) pat.length
        = .ok d1 ∧
      make_delta2 (List.replicate pat.length 0) (bufMem pat (some b)) pat.length = .ok d2 ∧
      ∀ i : Int,
        Reached (bufMem string none) string.length (bufMem pat (some b)) pat.length d1 d2 i →
        toSize i < string.length →
        ∀ i1 j shift : Int,
          boyer_moore_iter (bufMem string none) (bufMem pat (some b)) pat.length d1 d2 i
            = .ok (.mismatch i1 j shift) →
          0 ≤ j ∧ j ≤ (pat.length : Int) - 1 ∧
          (∃ (c : Byte) (v1 v2 : Int), bufMem string none i1 = some c ∧
            load d1 (c.val : Int) = some v1 ∧ load d2 j = some v2 ∧
            shift = BoyerMoore.max v1 v2) ∧
          (j = (pat.length : Int) - 1 ↔
            bufMem string none i ≠ bufMem pat (some b) ((pat.length : Int) - 1)) := by
  obtain ⟨d1, d2, hd1, hd2, hD1, hD2⟩ := tables_built pat b h1 hn
  have hb := lengths_lt_size_mod string pat hn hs
  refine ⟨d1, d2, hd1, hd2, fun i hreach hlt i1 j shift hit => ?_⟩
  obtain ⟨a, rfl, hfit⟩ := reached_fits string pat none (some b) d1 d2 hD1 hD2 hb h1 i
    hreach hlt
  rcases boyer_moore_iter_spec string pat none (some b) d1 d2 hD1.1 hD2.1 a hfit with
    ⟨_, hfound⟩ | ⟨jn, c, v1, v2, hj, hc, hne, hm, hv1, hv2, hmis⟩
  · rw [hfound] at hit
    exact absurd hit (by simp)
  · rw [hmis] at hit
    have hinj := Res.ok.inj hit
    have e1 : (a : Int) + (jn : Int) = i1 := by injection hinj
    have e2 : (jn : Int) = j := by injection hinj
    have e3 : BoyerMoore.max v1 v2 = shift := by injection hinj
    subst e1; subst e2; subst e3
    have ei : (a : Int) + (pat.length : Int) - 1 = ((a + (pat.length - 1) : Nat) : Int) := by
      omega
    have ep : (pat.length : Int) - 1 = ((pat.length - 1 : Nat) : Int) := by omega
    refine ⟨by omega, by omega, ⟨c, v1, v2, ?_, ?_, ?_, rfl⟩, ?_⟩
    · have e1 : (a : Int) + (jn : Int) = ((a + jn : Nat) : Int) := by omega
      rw [e1, bufMem_ofNat, hc]
    · rw [load_ofNat, hv1]
    · rw [load_ofNat, hv2]
    · rw [ei, ep, bufMem_ofNat, bufMem_ofNat]
      constructor
      · intro hjl
        have : jn = pat.length - 1 := by omega
        subst this
        exact hne
      · intro hfirst
        by_contra hjl
        exact hfirst (hm (pat.length - 1) (by omega) (by omega))

/-- Witness for C17 amended at text "b", pattern "a". -/
theorem boyer_moore_last_delta2_entry_use_witness :
    (0 < ([97] : List Byte).length ∧ ([97] : List Byte).length ≤ INT_MAX ∧
      ([98] : List Byte).length ≤ PTRDIFF_MAX) ∧
    ∃ d1 d2, make_delta1 (List.replicate ALPHABET_LEN 0) (bufMem [97] (some 0))
        ([97] : List Byte).length = .ok d1 ∧
      make_delta2 (List.replicate ([97] : List Byte).length 0) (bufMem [97] (some 0))
        ([97] : List Byte).length = .ok d2 := by
  refine ⟨⟨by decide, by decide, by decide⟩, ?_⟩
  obtain ⟨d1, d2, hd1, hd2, _⟩ := boyer_moore_last_delta2_entry_use [98] [97] 0
    (by decide) (by decide) (by decide)
  exact ⟨d1, d2, hd1, hd2⟩

/-- C18: for every pattern of length `n ≥ 1` the table produced by `make_delta2` does not
depend on the byte obtained when the pattern is read at index -1: for any two values `b`, `b0`
of that byte the results are equal; and when `slen = p + 1` (the case in which index -1 is
read) the value the guard would have written, `n-1-p+slen = n`, is the first-loop value at
index `n-2-p`. -/
theorem make_delta2_ignores_byte_before (pat : List Byte) (b b0 : Byte) (d : List Int)
    (hd : d.length = pat.length) (h1 : 0 < pat.length) (hn : pat.length ≤ INT_MAX) :
    make_delta2 d (bufMem pat (some b)) pat.length
      = make_delta2 d (bufMem pat (some b0)) pat.length ∧
    (∃ d2, make_delta2 d (bufMem pat (some b)) pat.length = .ok d2) ∧
    ∃ d0, make_delta2_first (bufMem pat (some b)) pat.length (pat.length + 1)
        ((pat.length : Int) - 1) 1 d = .ok d0 ∧
      ∀ (p slen : Nat), p + 1 < pat.length →
        suffix_length (bufMem pat (some b)) pat.length (p : Int) = .ok slen → slen = p + 1 →
        (pat.length : Int) - 1 - (p : Int) + (slen : Int) = (pat.length : Int) ∧
        d0[pat.length - 2 - p]? = some (pat.length : Int) := by
  have hn' := int_max_lt_size_mod _ hn
  obtain ⟨d2, h2, hT⟩ := make_delta2_spec pat b d hd h1 hn
  obtain ⟨d3, h3, hT3⟩ := make_delta2_spec pat b0 d hd h1 hn
  obtain ⟨d0, h0, hF⟩ := make_delta2_first_spec pat (some b) hn (pat.length + 1) pat.length 1 d
    (by omega) (by omega) (by omega) ⟨hd, fun q h1 h2 => by omega⟩
  refine ⟨?_, ⟨d2, h2⟩, d0, h0, fun p slen hp hsl hfull => ?_⟩
  · rw [h2, h3, delta2Table_unique pat d2 d3 hT hT3]
  · obtain ⟨k, hk0, _, hk2, _⟩ := suffix_length_spec pat b p (by omega) hn'
    rw [hk0] at hsl
    have hks : k = slen := Res.ok.inj hsl
    subst hks
    subst hfull
    obtain ⟨L, ⟨hL1, hL2, _, hL4⟩, hv0⟩ := hF.2 (pat.length - 2 - p) (by omega) (by omega)
    obtain ⟨hq, hpre⟩ := shiftPrefix_of_suffix pat p hp hk2
    have hIs : IsPrefixAt pat (pat.length - 1 - p) :=
      ((shiftPrefix_iff pat (pat.length - 1 - (p + 1)) (pat.length - 1 - p)).1 ⟨hq, hpre⟩).2
    have hle := hL4 (pat.length - 1 - p) (by omega) hIs
    have hL : L = pat.length - 1 - p := by omega
    subst hL
    refine ⟨by push_cast; omega, ?_⟩
    rw [hv0]
    congr 1
    omega

/-- Witness for C18 at the pattern "aa", where index -1 is read. -/
theorem make_delta2_ignores_byte_before_witness :
    ((List.replicate 2 (0 : Int)).length = ([97, 97] : List Byte).length ∧
      0 < ([97, 97] : List Byte).length ∧ ([97, 97] : List Byte).length ≤ INT_MAX) ∧
    make_delta2 (List.replicate 2 0) (bufMem [97, 97] (some 97)) ([97, 97] : List Byte).length
      = make_delta2 (List.replicate 2 0) (bufMem [97, 97] (some 98))
          ([97, 97] : List Byte).length :=
  ⟨⟨by decide, by decide, by decide⟩,
    (make_delta2_ignores_byte_before [97, 97] 97 98 (List.replicate 2 0)
      (by decide) (by decide) (by decide)).1⟩

/-- C19: for every pattern of length `n ≥ 1` and every `p ≤ n-2` with
`slen = suffix_length(pat, n, p) ≤ p`, the second-loop guard
`pat[p - slen] != pat[n-1 - slen]` is true and the pass performs its write. -/
theorem make_delta2_guard_true_in_range (pat : List Byte) (b : Byte) (p : Nat) (d : List Int)
    (hp : p + 1 < pat.length) (hn : pat.length ≤ INT_MAX) (hd : d.length = pat.length) :
    ∃ slen, suffix_length (bufMem pat (some b)) pat.length (p : Int) = .ok slen ∧
      (slen ≤ p →
        (∃ x y : Byte, bufMem pat (some b) ((p : Int) - (slen : Int)) = some x ∧
          bufMem pat (some b) ((pat.length : Int) - 1 - (slen : Int)) = some y ∧ x ≠ y) ∧
        make_delta2_body (bufMem pat (some b)) pat.length (p : Int) d
          = .ok (d.set (pat.length - 1 - slen)
              ((pat.length : Int) - 1 - (p : Int) + (slen : Int)))) := by
  have hn' := int_max_lt_size_mod _ hn
  obtain ⟨k, hk0, hk1, hk2, hk3, hcase⟩ := make_delta2_body_spec pat b p d hp hn' hd
  refine ⟨k, hk0, fun hkp => ⟨?_, ?_⟩⟩
  · have e1 : (p : Int) - (k : Int) = ((p - k : Nat) : Int) := by omega
    have e2 : (pat.length : Int) - 1 - (k : Int) = ((pat.length - 1 - k : Nat) : Int) := by
      omega
    have ea := List.getElem?_eq_getElem (l := pat) (by omega : p - k < pat.length)
    have eb := List.getElem?_eq_getElem (l := pat)
      (by omega : pat.length - 1 - k < pat.length)
    refine ⟨pat[p - k], pat[pat.length - 1 - k], ?_, ?_, ?_⟩
    · exact (congrArg (bufMem pat (some b)) e1).trans ((bufMem_ofNat pat (some b) _).trans ea)
    · exact (congrArg (bufMem pat (some b)) e2).trans ((bufMem_ofNat pat (some b) _).trans eb)
    · exact fun h => hk3 hkp (ea.trans ((congrArg some h).trans eb.symm))
  · rcases hcase with ⟨_, hw⟩ | ⟨hk, _⟩
    · exact hw
    · omega

/-- Witness for C19 at the pattern "ABYXCDBYX", `p = 3`. -/
theorem make_delta2_guard_true_in_range_witness :
    (3 + 1 < ([65, 66, 89, 88, 67, 68, 66, 89, 88] : List Byte).length ∧
      ([65, 66, 89, 88, 67, 68, 66, 89, 88] : List Byte).length ≤ INT_MAX ∧
      (List.replicate 9 (0 : Int)).length
        = ([65, 66, 89, 88, 67, 68, 66, 89, 88] : List Byte).length) ∧
    ∃ slen, suffix_length (bufMem [65, 66, 89, 88, 67, 68, 66, 89, 88] (some 0))
        ([65, 66, 89, 88, 67, 68, 66, 89, 88] : List Byte).length ((3 : Nat) : Int)
        = .ok slen := by
  refine ⟨⟨by decide, by decide, by decide⟩, ?_⟩
  obtain ⟨slen, h, _⟩ := make_delta2_guard_true_in_range [65, 66, 89, 88, 67, 68, 66, 89, 88] 0
    3 (List.replicate 9 0) (by decide) (by decide) (by decide)
  exact ⟨slen, h⟩

/-- C20: for every text and every non-empty pattern, the scan loop of `boyer_moore`, run on
the two tables with every access outside the text and outside the pattern treated as an error,
returns without error; in every pass the inner loop ends with cursors `(i1, j1)` such that the
alignment start `i1 - j1 = i - (patlen-1)` is `≥ 0`, `-1 ≤ j1 < patlen`, `0 ≤ i1 < stringlen`
as long as `j1 ≥ 0`, and `i1 < 0` only with `j1 < 0` and `i1 + 1 = 0`: a match at offset 0. -/
theorem boyer_moore_scan_in_range (string pat : List Byte) (b : Byte)
    (h1 : 0 < pat.length) (hn : pat.length ≤ INT_MAX) (hs : string.length ≤ PTRDIFF_MAX) :
    ∃ d1 d2, make_delta1 (List.replicate ALPHABET_LEN 0) (bufMem pat (some b)) pat.length
        = .ok d1 ∧
      make_delta2 (List.replicate pat.length 0) (bufMem pat (some b)) pat.length = .ok d2 ∧
      (∀ fuel : Nat, string.length < fuel →
        ∃ r, boyer_moore_scan (bufMem string none) string.length (bufMem pat none)
          pat.length d1 d2 fuel ((pat.length : Int) - 1) = .ok r) ∧
      ∀ i : Int,
        Reached (bufMem string none) string.length (bufMem pat none) pat.length d1 d2 i →
        toSize i < string.length →
        ∃ (i1 j1 : Int) (it : Iter),
          boyer_moore_inner (bufMem string none) (bufMem pat none) (pat.length + 1) i
            ((pat.length : Int) - 1) = .ok (i1, j1) ∧
          boyer_moore_iter (bufMem string none) (bufMem pat none) pat.length d1 d2 i
            = .ok it ∧
          0 ≤ i - ((pat.length : Int) - 1) ∧ i1 - j1 = i - ((pat.length : Int) - 1) ∧
          -1 ≤ j1 ∧ j1 < (pat.length : Int) ∧
          (0 ≤ j1 → 0 ≤ i1 ∧ i1 < (string.length : Int)) ∧
          (i1 < 0 → j1 < 0 ∧ i1 + 1 = 0 ∧ it = .found 0) := by
  obtain ⟨d1, d2, hd1, hd2, hD1, hD2⟩ := tables_built pat b h1 hn
  have hb := lengths_lt_size_mod string pat hn hs
  refine ⟨d1, d2, hd1, hd2, fun fuel hf => ?_, fun i hreach hlt => ?_⟩
  · obtain ⟨r, hr, _⟩ := boyer_moore_scan_spec string pat none none d1 d2 hD1 hD2 h1 hb
      fuel 0 (by omega) (by omega) (fun a' h => by omega)
    simp only [Nat.cast_zero, zero_add] at hr
    exact ⟨r, hr⟩
  · obtain ⟨a, rfl, hfit⟩ := reached_fits string pat none none d1 d2 hD1 hD2 hb h1 i
      hreach hlt
    obtain ⟨m, hm1, hm2, hm3, hm4⟩ := boyer_moore_inner_spec string pat none none a hfit
      (pat.length + 1) pat.length (le_refl _) (by omega) (fun k hk1 hk2 => by omega)
    have hit : ∃ it, boyer_moore_iter (bufMem string none) (bufMem pat none) pat.length d1 d2
        ((a : Int) + (pat.length : Int) - 1) = .ok it ∧
        ((a : Int) + (m : Int) - 1 < 0 → it = .found 0) := by
      rcases boyer_moore_iter_spec string pat none none d1 d2 hD1.1 hD2.1 a hfit with
        ⟨_, hfound⟩ | ⟨jn, c, v1, v2, hj, hc, hne, hmm, hv1, hv2, hmis⟩
      · refine ⟨_, hfound, fun hneg => ?_⟩
        have : a = 0 := by omega
        subst this
        rfl
      · refine ⟨_, hmis, fun hneg => ?_⟩
        exfalso
        have hm0 : m = 0 := by omega
        subst hm0
        exact hne (hm3 jn (by omega) hj)
    obtain ⟨it, hit1, hit2⟩ := hit
    exact ⟨_, _, it, hm2, hit1, by omega, by omega, by omega, by omega, fun h => by omega,
      fun h => ⟨by omega, by omega, hit2 h⟩⟩

/-- Witness for C20 at text "ab", pattern "ab": the match at offset 0. -/
theorem boyer_moore_scan_in_range_witness :
    (0 < ([97, 98] : List Byte).length ∧ ([97, 98] : List Byte).length ≤ INT_MAX ∧
      ([97, 98] : List Byte).length ≤ PTRDIFF_MAX) ∧
    ∃ d1 d2, make_delta1 (List.replicate ALPHABET_LEN 0) (bufMem [97, 98] (some 0))
        ([97, 98] : List Byte).length = .ok d1 ∧
      make_delta2 (List.replicate ([97, 98] : List Byte).length 0) (bufMem [97, 98] (some 0))
        ([97, 98] : List Byte).length = .ok d2 ∧
      ∃ r, boyer_moore_scan (bufMem [97, 98] none) ([97, 98] : List Byte).length
        (bufMem [97, 98] none) ([97, 98] : List Byte).length d1 d2 3
        ((([97, 98] : List Byte).length : Int) - 1) = .ok r := by
  refine ⟨⟨by decide, by decide, by decide⟩, ?_⟩
  obtain ⟨d1, d2, hd1, hd2, hrun, _⟩ := boyer_moore_scan_in_range [97, 98] [97, 98] 0
    (by decide) (by decide) (by decide)
  exact ⟨d1, d2, hd1, hd2, hrun 3 (by decide)⟩

end BoyerMoore
